import Mathlib

/-!
Verification development for the `utility-types` repository.

The repository's source (`src/representational-types.ts`) declares the data
shapes `JSONValue`, `JSONObject`, `NullableJSONValue`, `JSONPatchOperation`,
`JSONPatch` and the GeoJSON geometry types, but contains no executable logic.
The behaviour of applying a JSON Patch to a document is specified in the
design document only.  The definitions below therefore embed, on one hand,
the declared data shapes, and on the other hand a Patch Engine modelled from
the specification text (each such definition says so in its doc comment).

Conventions of the embedding:
* TypeScript `JSONValue` becomes the inductive `JSONValue`; a JS object is an
  ordered association list of string keys (JS objects have unique keys and JS
  arrays of type `JSONValue[]` are dense, which the predicate `isValid`
  characterises).
* JSON numbers are modelled as rationals, so that numeric equality is value
  equality as the specification demands.
* `undefined` is modelled by `Option`: `NullableJSONValue` is
  `Option JSONValue` with `none` playing the role of `undefined`.
-/

/-- The kinds of JSON values of the TypeScript union `JSONValue`
(string, number, boolean, null, `JSONObject`, `JSONValue[]`).  A `JSONObject`
is an ordered list of key/value pairs with string keys. -/
inductive JSONValue where
  | str : String → JSONValue
  | num : Rat → JSONValue
  | bool : Bool → JSONValue
  | null : JSONValue
  | obj : List (String × JSONValue) → JSONValue
  | arr : List JSONValue → JSONValue

/-- The TypeScript type `NullableJSONValue = JSONValue | undefined`;
`none` models `undefined`. -/
abbrev NullableJSONValue : Type := Option JSONValue

/-- The `undefined` inhabitant of `NullableJSONValue`. -/
def undefinedValue : NullableJSONValue := none

/-- Coercion of a `JSONValue` into `NullableJSONValue` (a defined value). -/
def toNullable (v : JSONValue) : NullableJSONValue := some v

/-- The discriminated union `JSONPatchOperation` of the source: `add`,
`remove`, `replace`, `move`, `copy`, `test`, with their `path`, `value` and
`from` fields (the `from` field is the first `String` argument of `move` and
`copy`). -/
inductive JSONPatchOperation where
  | add : String → JSONValue → JSONPatchOperation
  | remove : String → JSONPatchOperation
  | replace : String → JSONValue → JSONPatchOperation
  | move : String → String → JSONPatchOperation
  | copy : String → String → JSONPatchOperation
  | test : String → JSONValue → JSONPatchOperation

/-- The source type `JSONPatch = JSONPatchOperation[]`. -/
abbrev JSONPatch := List JSONPatchOperation

/-- Modelled from the spec: the error taxonomy of section 7 of the design
document (the source repository contains no engine code). -/
inductive ErrorKind where
  | invalidPointerSyntax : ErrorKind
  | pointerNotFound : ErrorKind
  | invalidPatchOperation : ErrorKind
  | testFailed : ErrorKind
deriving DecidableEq

/-- Modelled from the spec: the `PatchFailure` record of section 6
(`operationIndex`, `kind`, `pointer`); the engine itself is absent from the
source. -/
structure PatchFailure where
  operationIndex : Nat
  kind : ErrorKind
  pointer : String
deriving DecidableEq

/-- Splits a character list on `/` separators (always returns at least one
token). -/
def splitOnSlash : List Char → List (List Char)
  | [] => [[]]
  | '/' :: rest => [] :: splitOnSlash rest
  | c :: rest =>
    match splitOnSlash rest with
    | t :: ts => (c :: t) :: ts
    | [] => [[c]]

/-- Decodes the RFC-6901 escapes inside one token: `~1` becomes `/` and `~0`
becomes `~`. -/
def decodeToken : List Char → List Char
  | [] => []
  | '~' :: '1' :: rest => '/' :: decodeToken rest
  | '~' :: '0' :: rest => '~' :: decodeToken rest
  | c :: rest => c :: decodeToken rest

/-- Modelled from the spec: the Pointer Resolver's tokenisation (section 4.1;
the source repository contains no pointer code).  The empty string is the
root (no tokens); otherwise the optional leading `/` is stripped, the rest is
split on `/` and each token is unescaped. -/
def parsePointer (s : String) : List String :=
  if s = "" then []
  else
    let cs := match s.data with
      | '/' :: rest => rest
      | other => other
    (splitOnSlash cs).map (fun t => String.mk (decodeToken t))

/-- Modelled from the spec: parsing of a sequence-index literal (section 4.1):
no sign, no fractional part, and no leading zeros other than `"0"` itself. -/
def parseIndex (t : String) : Option Nat :=
  match t.data with
  | [] => none
  | ['0'] => some 0
  | c :: rest =>
    if c ≠ '0' && (c :: rest).all Char.isDigit then
      some ((c :: rest).foldl (fun acc d => acc * 10 + (d.toNat - '0'.toNat)) 0)
    else none

/-- Modelled from the spec: read resolution of a sequence token (section
4.1): `-` never resolves for a read, a malformed literal is
`invalidPointerSyntax`, an index must be strictly below the length. -/
def seqIndex (t : String) (len : Nat) : Except ErrorKind Nat :=
  if t = "-" then .error .pointerNotFound
  else
    match parseIndex t with
    | none => .error .invalidPointerSyntax
    | some i => if i < len then .ok i else .error .pointerNotFound

/-- Modelled from the spec: insertion resolution of a sequence token
(section 4.1): `-` denotes one past the last element and an index may equal
the length. -/
def seqInsertIndex (t : String) (len : Nat) : Except ErrorKind Nat :=
  if t = "-" then .ok len
  else
    match parseIndex t with
    | none => .error .invalidPointerSyntax
    | some i => if i ≤ len then .ok i else .error .pointerNotFound

/-- Looks a key up in an object's association list. -/
def lookupKey : List (String × JSONValue) → String → Option JSONValue
  | [], _ => none
  | (k, v) :: rest, t => if k = t then some v else lookupKey rest t

/-- Whether an object has a member with the given key. -/
def hasKey (m : List (String × JSONValue)) (t : String) : Bool :=
  (lookupKey m t).isSome

/-- Inserts or overwrites a key: an existing member keeps its position, a
fresh key is appended at the end. -/
def setKey : List (String × JSONValue) → String → JSONValue →
    List (String × JSONValue)
  | [], k, v => [(k, v)]
  | (k0, v0) :: rest, k, v =>
    if k0 = k then (k0, v) :: rest else (k0, v0) :: setKey rest k v

/-- Deletes the member with the given key (the first occurrence). -/
def removeKey : List (String × JSONValue) → String → List (String × JSONValue)
  | [], _ => []
  | (k0, v0) :: rest, k =>
    if k0 = k then rest else (k0, v0) :: removeKey rest k

/-- The element of a sequence at a zero-based index. -/
def nthItem : List JSONValue → Nat → Option JSONValue
  | [], _ => none
  | x :: _, 0 => some x
  | _ :: xs, i + 1 => nthItem xs i

/-- Overwrites the element of a sequence at an index (out of range: no-op). -/
def setItem : List JSONValue → Nat → JSONValue → List JSONValue
  | [], _, _ => []
  | _ :: xs, 0, v => v :: xs
  | x :: xs, i + 1, v => x :: setItem xs i v

/-- Inserts an element at an index, shifting subsequent elements right. -/
def insertItem : List JSONValue → Nat → JSONValue → List JSONValue
  | l, 0, v => v :: l
  | [], _ + 1, v => [v]
  | x :: xs, i + 1, v => x :: insertItem xs i v

/-- Deletes the element at an index, shifting subsequent elements left. -/
def removeItem : List JSONValue → Nat → List JSONValue
  | [], _ => []
  | _ :: xs, 0 => xs
  | x :: xs, i + 1 => x :: removeItem xs i

/-- Modelled from the spec: the Pointer Resolver's read resolution (section
4.1; the source repository contains no pointer code).  Walks the document one
token at a time; a mapping token is a key lookup, a sequence token must be an
in-bounds index, and addressing into a leaf is `pointerNotFound`. -/
def resolve : JSONValue → List String → Except ErrorKind JSONValue
  | d, [] => .ok d
  | .obj m, t :: ts =>
    match lookupKey m t with
    | some v => resolve v ts
    | none => .error .pointerNotFound
  | .arr a, t :: ts =>
    match seqIndex t a.length with
    | .ok i =>
      match nthItem a i with
      | some v => resolve v ts
      | none => .error .pointerNotFound
    | .error e => .error e
  | _, _ :: _ => .error .pointerNotFound

/-- Modelled from the spec: the `add` handler (section 4.2; the source
repository contains no handler code).  A root target replaces the whole
document; a mapping parent inserts or overwrites the key; a sequence parent
inserts at the index (`-` appends), shifting subsequent elements right. -/
def addAt : JSONValue → List String → JSONValue → Except ErrorKind JSONValue
  | _, [], v => .ok v
  | .obj m, [t], v => .ok (.obj (setKey m t v))
  | .arr a, [t], v =>
    match seqInsertIndex t a.length with
    | .ok i => .ok (.arr (insertItem a i v))
    | .error e => .error e
  | _, [_], _ => .error .pointerNotFound
  | .obj m, t :: t2 :: ts, v =>
    match lookupKey m t with
    | some w =>
      match addAt w (t2 :: ts) v with
      | .ok w2 => .ok (.obj (setKey m t w2))
      | .error e => .error e
    | none => .error .pointerNotFound
  | .arr a, t :: t2 :: ts, v =>
    match seqIndex t a.length with
    | .ok i =>
      match nthItem a i with
      | some w =>
        match addAt w (t2 :: ts) v with
        | .ok w2 => .ok (.arr (setItem a i w2))
        | .error e => .error e
      | none => .error .pointerNotFound
    | .error e => .error e
  | _, _ :: _ :: _, _ => .error .pointerNotFound

/-- Modelled from the spec: the `remove` handler (section 4.2; the source
repository contains no handler code).  Deletes the mapping key or sequence
element at the target pointer (subsequent sequence elements shift left);
a target that does not exist as a deletable member — including the root —
is `pointerNotFound`. -/
def removeAt : JSONValue → List String → Except ErrorKind JSONValue
  | _, [] => .error .pointerNotFound
  | .obj m, [t] =>
    if hasKey m t then .ok (.obj (removeKey m t)) else .error .pointerNotFound
  | .arr a, [t] =>
    match seqIndex t a.length with
    | .ok i => .ok (.arr (removeItem a i))
    | .error e => .error e
  | _, [_] => .error .pointerNotFound
  | .obj m, t :: t2 :: ts =>
    match lookupKey m t with
    | some w =>
      match removeAt w (t2 :: ts) with
      | .ok w2 => .ok (.obj (setKey m t w2))
      | .error e => .error e
    | none => .error .pointerNotFound
  | .arr a, t :: t2 :: ts =>
    match seqIndex t a.length with
    | .ok i =>
      match nthItem a i with
      | some w =>
        match removeAt w (t2 :: ts) with
        | .ok w2 => .ok (.arr (setItem a i w2))
        | .error e => .error e
      | none => .error .pointerNotFound
    | .error e => .error e
  | _, _ :: _ :: _ => .error .pointerNotFound

/-- Modelled from the spec: the `replace` handler (section 4.2; the source
repository contains no handler code).  The target must already exist; a root
target replaces the whole document. -/
def replaceAt : JSONValue → List String → JSONValue → Except ErrorKind JSONValue
  | _, [], v => .ok v
  | .obj m, [t], v =>
    if hasKey m t then .ok (.obj (setKey m t v)) else .error .pointerNotFound
  | .arr a, [t], v =>
    match seqIndex t a.length with
    | .ok i => .ok (.arr (setItem a i v))
    | .error e => .error e
  | _, [_], _ => .error .pointerNotFound
  | .obj m, t :: t2 :: ts, v =>
    match lookupKey m t with
    | some w =>
      match replaceAt w (t2 :: ts) v with
      | .ok w2 => .ok (.obj (setKey m t w2))
      | .error e => .error e
    | none => .error .pointerNotFound
  | .arr a, t :: t2 :: ts, v =>
    match seqIndex t a.length with
    | .ok i =>
      match nthItem a i with
      | some w =>
        match replaceAt w (t2 :: ts) v with
        | .ok w2 => .ok (.arr (setItem a i w2))
        | .error e => .error e
      | none => .error .pointerNotFound
    | .error e => .error e
  | _, _ :: _ :: _, _ => .error .pointerNotFound

mutual

/-- Modelled from the spec: the deep structural equality used by `test`
(section 4.2; the source repository contains no engine code): by type and
value, recursively, order-sensitive for sequences, key-set-sensitive but
order-insensitive for mappings, numbers compared by value. -/
def structEq : JSONValue → JSONValue → Bool
  | .str a, .str b => a = b
  | .num a, .num b => a = b
  | .bool a, .bool b => a = b
  | .null, .null => true
  | .arr a, .arr b => structEqList a b
  | .obj a, .obj b => b.all (fun p => hasKey a p.1) && objSubset a b
  | _, _ => false

/-- Pairwise structural equality of two sequences. -/
def structEqList : List JSONValue → List JSONValue → Bool
  | [], [] => true
  | x :: xs, y :: ys => structEq x y && structEqList xs ys
  | _, _ => false

/-- Every member of the first mapping occurs, with a structurally equal
value, in the second. -/
def objSubset : List (String × JSONValue) → List (String × JSONValue) → Bool
  | [], _ => true
  | (k, v) :: rest, other =>
    (match lookupKey other k with
      | some w => structEq v w
      | none => false) && objSubset rest other

end

/-- Modelled from the spec: the `test` handler (section 4.2; the source
repository contains no handler code).  Resolves the path and compares
structurally; a mismatch or a path that does not exist is `testFailed`. -/
def testOp (d : JSONValue) (toks : List String) (v : JSONValue) :
    Except ErrorKind JSONValue :=
  match resolve d toks with
  | .ok w => if structEq w v then .ok d else .error .testFailed
  | .error .pointerNotFound => .error .testFailed
  | .error e => .error e

/-- Whether the first token list is a proper prefix of the second (the first
pointer is a strict ancestor of the second). -/
def isStrictAncestor : List String → List String → Bool
  | [], [] => false
  | [], _ :: _ => true
  | _ :: _, [] => false
  | x :: xs, y :: ys => x = y && isStrictAncestor xs ys

/-- Modelled from the spec: the `move` handler (section 4.2; the source
repository contains no handler code).  Fails with `invalidPatchOperation`
when `from` is a strict ancestor of `path`; otherwise removes at `from` and
adds the removed value at `path`. -/
def moveOp (d : JSONValue) (fromToks pathToks : List String) :
    Except ErrorKind JSONValue :=
  if isStrictAncestor fromToks pathToks then .error .invalidPatchOperation
  else
    match resolve d fromToks with
    | .ok v =>
      match removeAt d fromToks with
      | .ok d2 => addAt d2 pathToks v
      | .error e => .error e
    | .error e => .error e

/-- Modelled from the spec: the `copy` handler (section 4.2; the source
repository contains no handler code).  Resolves `from` and adds the obtained
value at `path`. -/
def copyOp (d : JSONValue) (fromToks pathToks : List String) :
    Except ErrorKind JSONValue :=
  match resolve d fromToks with
  | .ok v => addAt d pathToks v
  | .error e => .error e

/-- The target pointer of an operation (its `path` field). -/
def pathOf : JSONPatchOperation → String
  | .add p _ => p
  | .remove p => p
  | .replace p _ => p
  | .move _ p => p
  | .copy _ p => p
  | .test p _ => p

/-- The literal `value` carried by an operation (`add`, `replace`, `test`);
`none` for the value-less operations. -/
def opValue : JSONPatchOperation → Option JSONValue
  | .add _ v => some v
  | .replace _ v => some v
  | .test _ v => some v
  | _ => none

/-- Modelled from the spec: one operation handler step (section 4.2; the
source repository contains no handler code). -/
def applyOp (d : JSONValue) : JSONPatchOperation → Except ErrorKind JSONValue
  | .add p v => addAt d (parsePointer p) v
  | .remove p => removeAt d (parsePointer p)
  | .replace p v => replaceAt d (parsePointer p) v
  | .move f p => moveOp d (parsePointer f) (parsePointer p)
  | .copy f p => copyOp d (parsePointer f) (parsePointer p)
  | .test p v => testOp d (parsePointer p) v

/-- Modelled from the spec: the Patch Applicator's loop (section 4.3; the
source repository contains no applicator code).  Applies operations left to
right, feeding each output into the next; on the first failure it aborts and
returns the original document together with the failing index and kind. -/
def applyFrom (orig : JSONValue) :
    JSONValue → Nat → List JSONPatchOperation → JSONValue × Option PatchFailure
  | cur, _, [] => (cur, none)
  | cur, k, op :: rest =>
    match applyOp cur op with
    | .ok d2 => applyFrom orig d2 (k + 1) rest
    | .error e => (orig, some ⟨k, e, pathOf op⟩)

/-- Modelled from the spec: the external `apply` operation of section 6
(`apply(document, patch)`), absent from the source repository. -/
def applyPatch (d : JSONValue) (p : JSONPatch) :
    JSONValue × Option PatchFailure :=
  applyFrom d d 0 p

/-- Plain sequential application without the all-or-nothing rollback, used to
phrase "the first `k` operations succeed". -/
def stepApply : JSONValue → List JSONPatchOperation → Except ErrorKind JSONValue
  | d, [] => .ok d
  | d, op :: rest =>
    match applyOp d op with
    | .ok d2 => stepApply d2 rest
    | .error e => .error e

/-- The final token of a pointer's token list. -/
def lastTok : List String → Option String
  | [] => none
  | [t] => some t
  | _ :: t2 :: ts => lastTok (t2 :: ts)

/-- Whether an object's keys are pairwise distinct. -/
def noDupKeys : List (String × JSONValue) → Bool
  | [] => true
  | (k, _) :: rest => !hasKey rest k && noDupKeys rest

mutual

/-- Structural validity of a document per the container rules of section 3
of the design document: every mapping has pairwise distinct keys and every
sequence is a dense list (in this embedding a sequence hole or an
`undefined` entry is not representable, so density is captured by the list
itself); this predicate characterises exactly the documents that arise from
values of the TypeScript type `JSONValue`, whose JS objects cannot repeat a
key. -/
def isValid : JSONValue → Bool
  | .str _ => true
  | .num _ => true
  | .bool _ => true
  | .null => true
  | .obj m => noDupKeys m && isValidObj m
  | .arr a => isValidArr a

/-- All member values of a mapping are valid. -/
def isValidObj : List (String × JSONValue) → Bool
  | [] => true
  | (_, v) :: rest => isValid v && isValidObj rest

/-- All elements of a sequence are valid. -/
def isValidArr : List JSONValue → Bool
  | [] => true
  | v :: rest => isValid v && isValidArr rest

end

/-- Validity of the literal `value` an operation carries, if any. -/
def opValueValid (op : JSONPatchOperation) : Bool :=
  match opValue op with
  | some v => isValid v
  | none => true

/-- Validity of every literal value carried by a patch. -/
def patchOpsValid (p : JSONPatch) : Bool := p.all opValueValid

/-- The GeoJSON position `[number, number]` of the source (longitude and
latitude). -/
abbrev GeoPosition := Rat × Rat

/-- The source union `GeoJSONGeometry`: one variant per geometry type, each
carrying the `coordinates` shape declared for it (`Point`, `LineString`,
`Polygon`, `MultiPoint`, `MultiLineString`, `MultiPolygon`). -/
inductive GeoJSONGeometry where
  | point : GeoPosition → GeoJSONGeometry
  | lineString : List GeoPosition → GeoJSONGeometry
  | polygon : List (List GeoPosition) → GeoJSONGeometry
  | multiPoint : List GeoPosition → GeoJSONGeometry
  | multiLineString : List (List GeoPosition) → GeoJSONGeometry
  | multiPolygon : List (List (List GeoPosition)) → GeoJSONGeometry

/-- A position as a JSON value: a two-element sequence of numbers. -/
def posToJSON (p : GeoPosition) : JSONValue := .arr [.num p.1, .num p.2]

/-- A linear ring / line as a JSON value. -/
def ringToJSON (r : List GeoPosition) : JSONValue := .arr (r.map posToJSON)

/-- A polygon's coordinate array as a JSON value. -/
def polyToJSON (q : List (List GeoPosition)) : JSONValue :=
  .arr (q.map ringToJSON)

/-- The JSON document a GeoJSON geometry literally is: a mapping with the
`type` tag string and the `coordinates` member, exactly as the source
declares each variant. -/
def geometryToJSON : GeoJSONGeometry → JSONValue
  | .point c => .obj [("type", .str "Point"), ("coordinates", posToJSON c)]
  | .lineString c =>
    .obj [("type", .str "LineString"), ("coordinates", ringToJSON c)]
  | .polygon c =>
    .obj [("type", .str "Polygon"), ("coordinates", polyToJSON c)]
  | .multiPoint c =>
    .obj [("type", .str "MultiPoint"), ("coordinates", ringToJSON c)]
  | .multiLineString c =>
    .obj [("type", .str "MultiLineString"), ("coordinates", polyToJSON c)]
  | .multiPolygon c =>
    .obj [("type", .str "MultiPolygon"),
          ("coordinates", .arr (c.map polyToJSON))]

mutual

/-- Whether a document is built only from mappings (with string keys),
sequences, numbers and strings — no booleans, no nulls (and, the embedding
being `JSONValue`, no `undefined`). -/
def geoShaped : JSONValue → Bool
  | .str _ => true
  | .num _ => true
  | .bool _ => false
  | .null => false
  | .obj m => geoShapedObj m
  | .arr a => geoShapedArr a

/-- All member values of a mapping are geo-shaped. -/
def geoShapedObj : List (String × JSONValue) → Bool
  | [] => true
  | (_, v) :: rest => geoShaped v && geoShapedObj rest

/-- All elements of a sequence are geo-shaped. -/
def geoShapedArr : List JSONValue → Bool
  | [] => true
  | v :: rest => geoShaped v && geoShapedArr rest

end

/-! ## Basic lemmas about the applicator -/

theorem testOp_ok_eq {d : JSONValue} {t : List String} {v w : JSONValue}
    (h : testOp d t v = .ok w) : w = d := by
  unfold testOp at h
  split at h
  · split at h
    · exact (Except.ok.inj h).symm
    · cases h
  · cases h
  · cases h

theorem applyFrom_rollback (P : List JSONPatchOperation) :
    ∀ (orig cur : JSONValue) (j : Nat) (pf : PatchFailure),
      (applyFrom orig cur j P).2 = some pf → (applyFrom orig cur j P).1 = orig := by
  induction P with
  | nil => intro orig cur j pf h; cases h
  | cons op rest ih =>
    intro orig cur j pf h
    cases hop : applyOp cur op with
    | ok d2 =>
      simp only [applyFrom, hop] at h ⊢
      exact ih orig d2 (j + 1) pf h
    | error e => simp only [applyFrom, hop]

theorem applyFrom_fails_at (P : List JSONPatchOperation) :
    ∀ (orig cur : JSONValue) (j k : Nat) (dk : JSONValue)
      (op : JSONPatchOperation) (e : ErrorKind),
      stepApply cur (P.take k) = .ok dk → P[k]? = some op →
      applyOp dk op = .error e →
      applyFrom orig cur j P = (orig, some ⟨j + k, e, pathOf op⟩) := by
  induction P with
  | nil => intro orig cur j k dk op e _ h2 _; cases h2
  | cons op0 rest ih =>
    intro orig cur j k dk op e h1 h2 h3
    cases k with
    | zero =>
      have hdk : cur = dk := by
        simp only [List.take_zero, stepApply] at h1
        exact Except.ok.inj h1
      subst hdk
      have hop : op0 = op := by
        simp only [List.getElem?_cons_zero] at h2
        exact Option.some.inj h2
      subst hop
      simp only [applyFrom, h3, Nat.add_zero]
    | succ k' =>
      rw [List.take_succ_cons] at h1
      cases hop0 : applyOp cur op0 with
      | ok d2 =>
        simp only [stepApply, hop0] at h1
        simp only [List.getElem?_cons_succ] at h2
        simp only [applyFrom, hop0]
        have h4 : j + 1 + k' = j + (k' + 1) := by omega
        rw [← h4]
        exact ih orig d2 (j + 1) k' dk op e h1 h2 h3
      | error e0 =>
        simp only [stepApply, hop0] at h1
        cases h1

/-- Claim C1: on any failure — at any zero-based index `k`, including
`k = 0` — `apply` returns the original document unchanged (no partial
application is observable), paired with a failure carrying the failing
operation's zero-based index and failure kind: whenever the first `k`
operations of `P` apply cleanly to `D` yielding `dk` and the operation at
index `k` fails on `dk` with kind `e`, `applyPatch D P` is exactly
`(D, some failure)` with `operationIndex = k` and `kind = e`. -/
theorem applyPatch_atomic :
    (∀ (D : JSONValue) (P : JSONPatch) (pf : PatchFailure),
        (applyPatch D P).2 = some pf → (applyPatch D P).1 = D)
    ∧ (∀ (D : JSONValue) (P : JSONPatch) (k : Nat) (dk : JSONValue)
        (op : JSONPatchOperation) (e : ErrorKind),
        stepApply D (P.take k) = .ok dk → P[k]? = some op →
        applyOp dk op = .error e →
        applyPatch D P = (D, some ⟨k, e, pathOf op⟩)) := by
  constructor
  · intro D P pf h
    exact applyFrom_rollback P D D 0 pf h
  · intro D P k dk op e h1 h2 h3
    have := applyFrom_fails_at P D D 0 k dk op e h1 h2 h3
    simpa using this

/-- Witness for C1, the spec's own scenario: on the document with the single
member `a` mapped to `1`, the patch `add /b 2` then `test /a 99` fails with
`testFailed` at index 1 and the returned document is the original (the
successful `add` is rolled back). -/
theorem applyPatch_atomic_witness :
    applyPatch (.obj [("a", .num 1)])
        [.add "/b" (.num 2), .test "/a" (.num 99)]
      = (.obj [("a", .num 1)], some ⟨1, .testFailed, "/a"⟩) :=
  applyPatch_atomic.2 (.obj [("a", .num 1)])
    [.add "/b" (.num 2), .test "/a" (.num 99)] 1
    (.obj [("a", .num 1), ("b", .num 2)]) (.test "/a" (.num 99))
    .testFailed rfl rfl rfl

/-- Claim C5: a patch consisting solely of one `test` operation never
mutates the document: the document component of the result equals the input
document, whether the test succeeds or fails (Lean equality of `JSONValue`
trees is structural equality). -/
theorem test_only_patch_preserves_document :
    ∀ (D : JSONValue) (p : String) (v : JSONValue),
      (applyPatch D [.test p v]).1 = D := by
  intro D p v
  cases h : testOp D (parsePointer p) v with
  | ok w =>
    have hw := testOp_ok_eq h
    simp only [applyPatch, applyFrom, applyOp, h, hw]
  | error e => simp only [applyPatch, applyFrom, applyOp, h]

/-- Claim C8: the empty patch is a no-op success: the original document is
returned unchanged with no failure. -/
theorem empty_patch_noop : ∀ (D : JSONValue),
    applyPatch D ([] : JSONPatch) = (D, none) := fun _ => rfl

/-- Claim C7: on the sequence `[a, b, c]`, `add` at `/1` inserts shifting
right (`[a, x, b, c]`), `remove` at `/1` deletes shifting left (`[a, c]`),
and `add` whose pointer's final token is `-` appends one past the last
element (`[a, b, c, x]`). -/
theorem array_shift_correct :
    ∀ (a b c x : JSONValue),
      applyPatch (.arr [a, b, c]) [.add "/1" x] = (.arr [a, x, b, c], none)
      ∧ applyPatch (.arr [a, b, c]) [.remove "/1"] = (.arr [a, c], none)
      ∧ applyPatch (.arr [a, b, c]) [.add "/-" x]
          = (.arr [a, b, c, x], none) :=
  fun _ _ _ _ => ⟨rfl, rfl, rfl⟩

/-- Claim C10: the `value` field carried by `add`, `replace` and `test` is a
`JSONValue` and therefore never the `undefined` of `NullableJSONValue`, and
the engine never produces an `undefined` document: both the carried values
and the output document, injected into `NullableJSONValue`, differ from
`undefinedValue`. -/
theorem op_value_never_undefined :
    ∀ (op : JSONPatchOperation) (D : JSONValue) (P : JSONPatch),
      (opValue op).map toNullable ≠ some undefinedValue
      ∧ toNullable (applyPatch D P).1 ≠ undefinedValue := by
  intro op D P
  constructor
  · cases op <;> simp [opValue, toNullable, undefinedValue]
  · simp [toNullable, undefinedValue]

/-! ## GeoJSON geometries are valid JSON documents -/

theorem isValidArr_map {α : Type _} (f : α → JSONValue)
    (hf : ∀ x, isValid (f x) = true) :
    ∀ l : List α, isValidArr (List.map f l) = true := by
  intro l
  induction l with
  | nil => rfl
  | cons x xs ih => simp [isValidArr, hf x, ih]

theorem geoShapedArr_map {α : Type _} (f : α → JSONValue)
    (hf : ∀ x, geoShaped (f x) = true) :
    ∀ l : List α, geoShapedArr (List.map f l) = true := by
  intro l
  induction l with
  | nil => rfl
  | cons x xs ih => simp [geoShapedArr, hf x, ih]

theorem ringToJSON_valid (r : List GeoPosition) :
    isValid (ringToJSON r) = true :=
  isValidArr_map posToJSON (fun _ => rfl) r

theorem polyToJSON_valid (q : List (List GeoPosition)) :
    isValid (polyToJSON q) = true :=
  isValidArr_map ringToJSON ringToJSON_valid q

theorem ringToJSON_geoShaped (r : List GeoPosition) :
    geoShaped (ringToJSON r) = true :=
  geoShapedArr_map posToJSON (fun _ => rfl) r

theorem polyToJSON_geoShaped (q : List (List GeoPosition)) :
    geoShaped (polyToJSON q) = true :=
  geoShapedArr_map ringToJSON ringToJSON_geoShaped q

/-- Claim C9: every GeoJSON geometry value is itself a valid JSON document:
`geometryToJSON` exhibits it as a `JSONValue` (so the patch engine can take
it directly as an input document), the result is structurally valid (unique
mapping keys, dense sequences), and it is built only from mappings with
string keys, sequences, numbers and strings. -/
theorem geometry_is_valid_json (g : GeoJSONGeometry) :
    isValid (geometryToJSON g) = true ∧ geoShaped (geometryToJSON g) = true := by
  cases g with
  | point c => exact ⟨rfl, rfl⟩
  | lineString c =>
    constructor
    · show isValid (ringToJSON c) && true = true
      rw [ringToJSON_valid c]
      decide
    · show geoShaped (ringToJSON c) && true = true
      rw [ringToJSON_geoShaped c]
      decide
  | polygon c =>
    constructor
    · show isValid (polyToJSON c) && true = true
      rw [polyToJSON_valid c]
      decide
    · show geoShaped (polyToJSON c) && true = true
      rw [polyToJSON_geoShaped c]
      decide
  | multiPoint c =>
    constructor
    · show isValid (ringToJSON c) && true = true
      rw [ringToJSON_valid c]
      decide
    · show geoShaped (ringToJSON c) && true = true
      rw [ringToJSON_geoShaped c]
      decide
  | multiLineString c =>
    constructor
    · show isValid (polyToJSON c) && true = true
      rw [polyToJSON_valid c]
      decide
    · show geoShaped (polyToJSON c) && true = true
      rw [polyToJSON_geoShaped c]
      decide
  | multiPolygon c =>
    constructor
    · show isValidArr (List.map polyToJSON c) && true = true
      rw [isValidArr_map polyToJSON polyToJSON_valid c]
      decide
    · show geoShapedArr (List.map polyToJSON c) && true = true
      rw [geoShapedArr_map polyToJSON polyToJSON_geoShaped c]
      decide

/-! ## Validity preservation (claim C2) -/

theorem lookupKey_isValid :
    ∀ (m : List (String × JSONValue)) (k : String) (v : JSONValue),
      isValidObj m = true → lookupKey m k = some v → isValid v = true := by
  intro m k v hm hl
  induction m with
  | nil => cases hl
  | cons kv rest ih =>
    obtain ⟨k0, v0⟩ := kv
    simp only [isValidObj, Bool.and_eq_true] at hm
    simp only [lookupKey] at hl
    by_cases hk : k0 = k
    · rw [if_pos hk] at hl
      rw [← Option.some.inj hl]
      exact hm.1
    · rw [if_neg hk] at hl
      exact ih hm.2 hl

theorem nthItem_isValid :
    ∀ (a : List JSONValue) (i : Nat) (v : JSONValue),
      isValidArr a = true → nthItem a i = some v → isValid v = true := by
  intro a
  induction a with
  | nil => intro i v _ hl; cases hl
  | cons x xs ih =>
    intro i v ha hl
    simp only [isValidArr, Bool.and_eq_true] at ha
    cases i with
    | zero =>
      simp only [nthItem] at hl
      rw [← Option.some.inj hl]
      exact ha.1
    | succ i' => exact ih i' v ha.2 hl

theorem resolve_isValid :
    ∀ (toks : List String) (d v : JSONValue),
      isValid d = true → resolve d toks = .ok v → isValid v = true := by
  intro toks
  induction toks with
  | nil =>
    intro d v hd hr
    simp only [resolve] at hr
    rw [← Except.ok.inj hr]
    exact hd
  | cons t ts ih =>
    intro d v hd hr
    cases d with
    | obj m =>
      simp only [resolve] at hr
      cases hl : lookupKey m t with
      | some w =>
        rw [hl] at hr
        simp only [isValid, Bool.and_eq_true] at hd
        exact ih w v (lookupKey_isValid m t w hd.2 hl) hr
      | none => rw [hl] at hr; cases hr
    | arr a =>
      simp only [resolve] at hr
      split at hr
      · rename_i i hi
        split at hr
        · rename_i w hn
          exact ih w v (nthItem_isValid a i w hd hn) hr
        · cases hr
      · cases hr
    | str s => cases hr
    | num n => cases hr
    | bool b => cases hr
    | null => cases hr

theorem hasKey_setKey_ne :
    ∀ (m : List (String × JSONValue)) (t k : String) (v : JSONValue),
      k ≠ t → hasKey (setKey m t v) k = hasKey m k := by
  intro m t k v hk
  induction m with
  | nil =>
    simp only [setKey, hasKey, lookupKey]
    rw [if_neg (fun h => hk h.symm)]
  | cons kv rest ih =>
    obtain ⟨k0, v0⟩ := kv
    simp only [setKey]
    by_cases h0 : k0 = t
    · rw [if_pos h0]
      simp only [hasKey, lookupKey]
      have h1 : ¬k0 = k := fun h => hk (h ▸ h0)
      rw [if_neg h1, if_neg h1]
    · rw [if_neg h0]
      simp only [hasKey, lookupKey]
      by_cases h1 : k0 = k
      · rw [if_pos h1, if_pos h1]
      · rw [if_neg h1, if_neg h1]
        exact ih

theorem noDupKeys_setKey :
    ∀ (m : List (String × JSONValue)) (t : String) (v : JSONValue),
      noDupKeys m = true → noDupKeys (setKey m t v) = true := by
  intro m t v hm
  induction m with
  | nil => simp [setKey, noDupKeys, hasKey, lookupKey]
  | cons kv rest ih =>
    obtain ⟨k0, v0⟩ := kv
    simp only [noDupKeys, Bool.and_eq_true] at hm
    by_cases h0 : k0 = t
    · simp only [setKey, if_pos h0, noDupKeys, Bool.and_eq_true]
      exact hm
    · simp only [setKey, if_neg h0, noDupKeys, Bool.and_eq_true]
      constructor
      · rw [hasKey_setKey_ne rest t k0 v (fun h => h0 h)]
        exact hm.1
      · exact ih hm.2

theorem isValidObj_setKey :
    ∀ (m : List (String × JSONValue)) (t : String) (v : JSONValue),
      isValidObj m = true → isValid v = true →
      isValidObj (setKey m t v) = true := by
  intro m t v hm hv
  induction m with
  | nil => simp [setKey, isValidObj, hv]
  | cons kv rest ih =>
    obtain ⟨k0, v0⟩ := kv
    simp only [isValidObj, Bool.and_eq_true] at hm
    by_cases h0 : k0 = t
    · simp only [setKey, if_pos h0, isValidObj, Bool.and_eq_true]
      exact ⟨hv, hm.2⟩
    · simp only [setKey, if_neg h0, isValidObj, Bool.and_eq_true]
      exact ⟨hm.1, ih hm.2⟩

theorem hasKey_removeKey_false :
    ∀ (m : List (String × JSONValue)) (t k : String),
      hasKey m k = false → hasKey (removeKey m t) k = false := by
  intro m t k hm
  induction m with
  | nil => simpa [removeKey] using hm
  | cons kv rest ih =>
    obtain ⟨k0, v0⟩ := kv
    simp only [hasKey, lookupKey] at hm
    by_cases h1 : k0 = k
    · rw [if_pos h1] at hm
      cases hm
    · rw [if_neg h1] at hm
      simp only [removeKey]
      by_cases h0 : k0 = t
      · rw [if_pos h0]
        exact hm
      · rw [if_neg h0]
        simp only [hasKey, lookupKey]
        rw [if_neg h1]
        exact ih hm

theorem noDupKeys_removeKey :
    ∀ (m : List (String × JSONValue)) (t : String),
      noDupKeys m = true → noDupKeys (removeKey m t) = true := by
  intro m t hm
  induction m with
  | nil => exact hm
  | cons kv rest ih =>
    obtain ⟨k0, v0⟩ := kv
    simp only [noDupKeys, Bool.and_eq_true] at hm
    simp only [removeKey]
    by_cases h0 : k0 = t
    · rw [if_pos h0]
      exact hm.2
    · rw [if_neg h0]
      simp only [noDupKeys, Bool.and_eq_true]
      constructor
      · have : hasKey rest k0 = false := by
          cases h : hasKey rest k0
          · rfl
          · rw [h] at hm; cases hm.1
        rw [hasKey_removeKey_false rest t k0 this]
        rfl
      · exact ih hm.2

theorem isValidObj_removeKey :
    ∀ (m : List (String × JSONValue)) (t : String),
      isValidObj m = true → isValidObj (removeKey m t) = true := by
  intro m t hm
  induction m with
  | nil => exact hm
  | cons kv rest ih =>
    obtain ⟨k0, v0⟩ := kv
    simp only [isValidObj, Bool.and_eq_true] at hm
    simp only [removeKey]
    by_cases h0 : k0 = t
    · rw [if_pos h0]
      exact hm.2
    · rw [if_neg h0]
      simp only [isValidObj, Bool.and_eq_true]
      exact ⟨hm.1, ih hm.2⟩

theorem isValidArr_setItem :
    ∀ (a : List JSONValue) (i : Nat) (v : JSONValue),
      isValidArr a = true → isValid v = true →
      isValidArr (setItem a i v) = true := by
  intro a
  induction a with
  | nil => intro i v ha _; exact ha
  | cons x xs ih =>
    intro i v ha hv
    simp only [isValidArr, Bool.and_eq_true] at ha
    cases i with
    | zero => simp only [setItem, isValidArr, Bool.and_eq_true]; exact ⟨hv, ha.2⟩
    | succ i' =>
      simp only [setItem, isValidArr, Bool.and_eq_true]
      exact ⟨ha.1, ih i' v ha.2 hv⟩

theorem isValidArr_insertItem :
    ∀ (a : List JSONValue) (i : Nat) (v : JSONValue),
      isValidArr a = true → isValid v = true →
      isValidArr (insertItem a i v) = true := by
  intro a
  induction a with
  | nil =>
    intro i v ha hv
    cases i with
    | zero => simp [insertItem, isValidArr, hv]
    | succ i' => simp [insertItem, isValidArr, hv]
  | cons x xs ih =>
    intro i v ha hv
    simp only [isValidArr, Bool.and_eq_true] at ha
    cases i with
    | zero =>
      simp only [insertItem, isValidArr, Bool.and_eq_true]
      exact ⟨hv, ha.1, ha.2⟩
    | succ i' =>
      simp only [insertItem, isValidArr, Bool.and_eq_true]
      exact ⟨ha.1, ih i' v ha.2 hv⟩

theorem isValidArr_removeItem :
    ∀ (a : List JSONValue) (i : Nat),
      isValidArr a = true → isValidArr (removeItem a i) = true := by
  intro a
  induction a with
  | nil => intro i ha; exact ha
  | cons x xs ih =>
    intro i ha
    simp only [isValidArr, Bool.and_eq_true] at ha
    cases i with
    | zero => exact ha.2
    | succ i' =>
      simp only [removeItem, isValidArr, Bool.and_eq_true]
      exact ⟨ha.1, ih i' ha.2⟩

theorem addAt_isValid :
    ∀ (toks : List String) (d v d' : JSONValue),
      isValid d = true → isValid v = true → addAt d toks v = .ok d' →
      isValid d' = true := by
  intro toks
  induction toks with
  | nil =>
    intro d v d' _ hv heq
    simp only [addAt] at heq
    rw [← Except.ok.inj heq]
    exact hv
  | cons t ts ih =>
    intro d v d' hd hv heq
    cases ts with
    | nil =>
      cases d with
      | obj m =>
        simp only [addAt] at heq
        rw [← Except.ok.inj heq]
        simp only [isValid, Bool.and_eq_true] at hd ⊢
        exact ⟨noDupKeys_setKey m t v hd.1, isValidObj_setKey m t v hd.2 hv⟩
      | arr a =>
        simp only [addAt] at heq
        split at heq
        · rename_i i hi
          rw [← Except.ok.inj heq]
          show isValidArr (insertItem a i v) = true
          exact isValidArr_insertItem a i v hd hv
        · cases heq
      | str s => simp only [addAt] at heq; cases heq
      | num n => simp only [addAt] at heq; cases heq
      | bool b => simp only [addAt] at heq; cases heq
      | null => simp only [addAt] at heq; cases heq
    | cons t2 ts2 =>
      cases d with
      | obj m =>
        simp only [addAt] at heq
        split at heq
        · rename_i w hw
          split at heq
          · rename_i w2 hw2
            rw [← Except.ok.inj heq]
            simp only [isValid, Bool.and_eq_true] at hd ⊢
            have hwv : isValid w = true := lookupKey_isValid m t w hd.2 hw
            exact ⟨noDupKeys_setKey m t w2 hd.1,
              isValidObj_setKey m t w2 hd.2 (ih w v w2 hwv hv hw2)⟩
          · cases heq
        · cases heq
      | arr a =>
        simp only [addAt] at heq
        split at heq
        · rename_i i hi
          split at heq
          · rename_i w hw
            split at heq
            · rename_i w2 hw2
              rw [← Except.ok.inj heq]
              show isValidArr (setItem a i w2) = true
              exact isValidArr_setItem a i w2 hd
                (ih w v w2 (nthItem_isValid a i w hd hw) hv hw2)
            · cases heq
          · cases heq
        · cases heq
      | str s => simp only [addAt] at heq; cases heq
      | num n => simp only [addAt] at heq; cases heq
      | bool b => simp only [addAt] at heq; cases heq
      | null => simp only [addAt] at heq; cases heq

theorem removeAt_isValid :
    ∀ (toks : List String) (d d' : JSONValue),
      isValid d = true → removeAt d toks = .ok d' → isValid d' = true := by
  intro toks
  induction toks with
  | nil => intro d d' _ heq; simp only [removeAt] at heq; cases heq
  | cons t ts ih =>
    intro d d' hd heq
    cases ts with
    | nil =>
      cases d with
      | obj m =>
        simp only [removeAt] at heq
        split at heq
        · rw [← Except.ok.inj heq]
          simp only [isValid, Bool.and_eq_true] at hd ⊢
          exact ⟨noDupKeys_removeKey m t hd.1, isValidObj_removeKey m t hd.2⟩
        · cases heq
      | arr a =>
        simp only [removeAt] at heq
        split at heq
        · rename_i i hi
          rw [← Except.ok.inj heq]
          show isValidArr (removeItem a i) = true
          exact isValidArr_removeItem a i hd
        · cases heq
      | str s => simp only [removeAt] at heq; cases heq
      | num n => simp only [removeAt] at heq; cases heq
      | bool b => simp only [removeAt] at heq; cases heq
      | null => simp only [removeAt] at heq; cases heq
    | cons t2 ts2 =>
      cases d with
      | obj m =>
        simp only [removeAt] at heq
        split at heq
        · rename_i w hw
          split at heq
          · rename_i w2 hw2
            rw [← Except.ok.inj heq]
            simp only [isValid, Bool.and_eq_true] at hd ⊢
            have hwv : isValid w = true := lookupKey_isValid m t w hd.2 hw
            exact ⟨noDupKeys_setKey m t w2 hd.1,
              isValidObj_setKey m t w2 hd.2 (ih w w2 hwv hw2)⟩
          · cases heq
        · cases heq
      | arr a =>
        simp only [removeAt] at heq
        split at heq
        · rename_i i hi
          split at heq
          · rename_i w hw
            split at heq
            · rename_i w2 hw2
              rw [← Except.ok.inj heq]
              show isValidArr (setItem a i w2) = true
              exact isValidArr_setItem a i w2 hd
                (ih w w2 (nthItem_isValid a i w hd hw) hw2)
            · cases heq
          · cases heq
        · cases heq
      | str s => simp only [removeAt] at heq; cases heq
      | num n => simp only [removeAt] at heq; cases heq
      | bool b => simp only [removeAt] at heq; cases heq
      | null => simp only [removeAt] at heq; cases heq

theorem replaceAt_isValid :
    ∀ (toks : List String) (d v d' : JSONValue),
      isValid d = true → isValid v = true → replaceAt d toks v = .ok d' →
      isValid d' = true := by
  intro toks
  induction toks with
  | nil =>
    intro d v d' _ hv heq
    simp only [replaceAt] at heq
    rw [← Except.ok.inj heq]
    exact hv
  | cons t ts ih =>
    intro d v d' hd hv heq
    cases ts with
    | nil =>
      cases d with
      | obj m =>
        simp only [replaceAt] at heq
        split at heq
        · rw [← Except.ok.inj heq]
          simp only [isValid, Bool.and_eq_true] at hd ⊢
          exact ⟨noDupKeys_setKey m t v hd.1, isValidObj_setKey m t v hd.2 hv⟩
        · cases heq
      | arr a =>
        simp only [replaceAt] at heq
        split at heq
        · rename_i i hi
          rw [← Except.ok.inj heq]
          show isValidArr (setItem a i v) = true
          exact isValidArr_setItem a i v hd hv
        · cases heq
      | str s => simp only [replaceAt] at heq; cases heq
      | num n => simp only [replaceAt] at heq; cases heq
      | bool b => simp only [replaceAt] at heq; cases heq
      | null => simp only [replaceAt] at heq; cases heq
    | cons t2 ts2 =>
      cases d with
      | obj m =>
        simp only [replaceAt] at heq
        split at heq
        · rename_i w hw
          split at heq
          · rename_i w2 hw2
            rw [← Except.ok.inj heq]
            simp only [isValid, Bool.and_eq_true] at hd ⊢
            have hwv : isValid w = true := lookupKey_isValid m t w hd.2 hw
            exact ⟨noDupKeys_setKey m t w2 hd.1,
              isValidObj_setKey m t w2 hd.2 (ih w v w2 hwv hv hw2)⟩
          · cases heq
        · cases heq
      | arr a =>
        simp only [replaceAt] at heq
        split at heq
        · rename_i i hi
          split at heq
          · rename_i w hw
            split at heq
            · rename_i w2 hw2
              rw [← Except.ok.inj heq]
              show isValidArr (setItem a i w2) = true
              exact isValidArr_setItem a i w2 hd
                (ih w v w2 (nthItem_isValid a i w hd hw) hv hw2)
            · cases heq
          · cases heq
        · cases heq
      | str s => simp only [replaceAt] at heq; cases heq
      | num n => simp only [replaceAt] at heq; cases heq
      | bool b => simp only [replaceAt] at heq; cases heq
      | null => simp only [replaceAt] at heq; cases heq

theorem applyOp_isValid (d d' : JSONValue) (op : JSONPatchOperation)
    (hd : isValid d = true) (hop : opValueValid op = true)
    (heq : applyOp d op = .ok d') : isValid d' = true := by
  cases op with
  | add p v =>
    simp only [opValueValid, opValue] at hop
    exact addAt_isValid (parsePointer p) d v d' hd hop heq
  | remove p => exact removeAt_isValid (parsePointer p) d d' hd heq
  | replace p v =>
    simp only [opValueValid, opValue] at hop
    exact replaceAt_isValid (parsePointer p) d v d' hd hop heq
  | move f p =>
    simp only [applyOp, moveOp] at heq
    split at heq
    · cases heq
    · split at heq
      · rename_i v hv
        split at heq
        · rename_i d2 hd2
          have hvv : isValid v = true := resolve_isValid (parsePointer f) d v hd hv
          have hd2v : isValid d2 = true := removeAt_isValid (parsePointer f) d d2 hd hd2
          exact addAt_isValid (parsePointer p) d2 v d' hd2v hvv heq
        · cases heq
      · cases heq
  | copy f p =>
    simp only [applyOp, copyOp] at heq
    split at heq
    · rename_i v hv
      have hvv : isValid v = true := resolve_isValid (parsePointer f) d v hd hv
      exact addAt_isValid (parsePointer p) d v d' hd hvv heq
    · cases heq
  | test p v =>
    have := testOp_ok_eq heq
    rw [this]
    exact hd

theorem applyFrom_isValid (P : List JSONPatchOperation) :
    ∀ (orig cur : JSONValue) (j : Nat),
      isValid orig = true → isValid cur = true → patchOpsValid P = true →
      isValid (applyFrom orig cur j P).1 = true := by
  induction P with
  | nil => intro orig cur j _ hcur _; exact hcur
  | cons op rest ih =>
    intro orig cur j horig hcur hP
    simp only [patchOpsValid, List.all_cons, Bool.and_eq_true] at hP
    cases hop : applyOp cur op with
    | ok d2 =>
      simp only [applyFrom, hop]
      exact ih orig d2 (j + 1) horig
        (applyOp_isValid cur d2 op hcur hP.1 hop) hP.2
    | error e => simp only [applyFrom, hop]; exact horig

/-- Claim C2: the engine never produces a structurally invalid document: for
every structurally valid document `D` (unique mapping keys, dense sequences —
the image of the TypeScript `JSONValue` type, whose JS objects cannot repeat
a key and whose typed arrays have no `undefined` holes) and every patch
whose carried literal values are likewise valid (again automatic for the
TypeScript type), the document returned by `apply` — the final document on
success, the original document on failure — is structurally valid. -/
theorem applyPatch_preserves_validity :
    ∀ (D : JSONValue) (P : JSONPatch),
      isValid D = true → patchOpsValid P = true →
      isValid (applyPatch D P).1 = true :=
  fun D P hD hP => applyFrom_isValid P D D 0 hD hD hP

/-- Witness for C2 at a concrete valid document and patch. -/
theorem applyPatch_preserves_validity_witness :
    isValid (applyPatch (.obj [("a", .num 1)])
      [.add "/b" (.num 2), .remove "/a"]).1 = true :=
  applyPatch_preserves_validity (.obj [("a", .num 1)])
    [.add "/b" (.num 2), .remove "/a"] rfl rfl

/-! ## Add/remove round trip (claim C4) -/

theorem lookupKey_setKey_self :
    ∀ (m : List (String × JSONValue)) (t : String) (v : JSONValue),
      lookupKey (setKey m t v) t = some v := by
  intro m t v
  induction m with
  | nil => simp [setKey, lookupKey]
  | cons kv rest ih =>
    obtain ⟨k0, v0⟩ := kv
    simp only [setKey]
    by_cases h0 : k0 = t
    · rw [if_pos h0]
      simp only [lookupKey]
      rw [if_pos h0]
    · rw [if_neg h0]
      simp only [lookupKey]
      rw [if_neg h0]
      exact ih

theorem setKey_setKey_self :
    ∀ (m : List (String × JSONValue)) (t : String) (x y : JSONValue),
      setKey (setKey m t x) t y = setKey m t y := by
  intro m t x y
  induction m with
  | nil => simp [setKey]
  | cons kv rest ih =>
    obtain ⟨k0, v0⟩ := kv
    by_cases h0 : k0 = t
    · subst h0
      simp [setKey]
    · simp [setKey, h0, ih]

theorem setKey_lookup_self :
    ∀ (m : List (String × JSONValue)) (t : String) (w : JSONValue),
      lookupKey m t = some w → setKey m t w = m := by
  intro m t w h
  induction m with
  | nil => cases h
  | cons kv rest ih =>
    obtain ⟨k0, v0⟩ := kv
    simp only [lookupKey] at h
    simp only [setKey]
    by_cases h0 : k0 = t
    · rw [if_pos h0] at h
      rw [if_pos h0, Option.some.inj h]
    · rw [if_neg h0] at h
      rw [if_neg h0, ih h]

theorem removeKey_setKey_fresh :
    ∀ (m : List (String × JSONValue)) (t : String) (v : JSONValue),
      lookupKey m t = none → removeKey (setKey m t v) t = m := by
  intro m t v h
  induction m with
  | nil => simp [setKey, removeKey]
  | cons kv rest ih =>
    obtain ⟨k0, v0⟩ := kv
    simp only [lookupKey] at h
    by_cases h0 : k0 = t
    · rw [if_pos h0] at h
      cases h
    · rw [if_neg h0] at h
      simp only [setKey]
      rw [if_neg h0]
      simp only [removeKey]
      rw [if_neg h0, ih h]

theorem nthItem_lt :
    ∀ (a : List JSONValue) (i : Nat), i < a.length →
      ∃ w, nthItem a i = some w := by
  intro a
  induction a with
  | nil => intro i h; cases h
  | cons x xs ih =>
    intro i h
    cases i with
    | zero => exact ⟨x, rfl⟩
    | succ i' => exact ih i' (Nat.lt_of_succ_lt_succ h)

theorem nthItem_setItem_self :
    ∀ (a : List JSONValue) (i : Nat) (v w : JSONValue),
      nthItem a i = some w → nthItem (setItem a i v) i = some v := by
  intro a
  induction a with
  | nil => intro i v w h; cases h
  | cons x xs ih =>
    intro i v w h
    cases i with
    | zero => rfl
    | succ i' => exact ih i' v w h

theorem setItem_setItem_self :
    ∀ (a : List JSONValue) (i : Nat) (x y : JSONValue),
      setItem (setItem a i x) i y = setItem a i y := by
  intro a
  induction a with
  | nil => intro i x y; rfl
  | cons z zs ih =>
    intro i x y
    cases i with
    | zero => rfl
    | succ i' => simp only [setItem]; rw [ih]

theorem setItem_nthItem_self :
    ∀ (a : List JSONValue) (i : Nat) (w : JSONValue),
      nthItem a i = some w → setItem a i w = a := by
  intro a
  induction a with
  | nil => intro i w h; cases h
  | cons x xs ih =>
    intro i w h
    cases i with
    | zero =>
      simp only [nthItem] at h
      simp only [setItem, Option.some.inj h]
    | succ i' =>
      simp only [nthItem] at h
      simp only [setItem]
      rw [ih i' w h]

theorem length_setItem :
    ∀ (a : List JSONValue) (i : Nat) (v : JSONValue),
      (setItem a i v).length = a.length := by
  intro a
  induction a with
  | nil => intro i v; rfl
  | cons x xs ih =>
    intro i v
    cases i with
    | zero => rfl
    | succ i' => simp only [setItem, List.length_cons, ih]

theorem length_insertItem :
    ∀ (a : List JSONValue) (i : Nat) (v : JSONValue), i ≤ a.length →
      (insertItem a i v).length = a.length + 1 := by
  intro a
  induction a with
  | nil =>
    intro i v h
    cases i with
    | zero => rfl
    | succ i' => cases h
  | cons x xs ih =>
    intro i v h
    cases i with
    | zero => rfl
    | succ i' =>
      simp only [insertItem, List.length_cons]
      rw [ih i' v (Nat.le_of_succ_le_succ h)]

theorem removeItem_insertItem :
    ∀ (a : List JSONValue) (i : Nat) (v : JSONValue), i ≤ a.length →
      removeItem (insertItem a i v) i = a := by
  intro a
  induction a with
  | nil =>
    intro i v h
    cases i with
    | zero => rfl
    | succ i' => cases h
  | cons x xs ih =>
    intro i v h
    cases i with
    | zero => rfl
    | succ i' =>
      simp only [insertItem, removeItem]
      rw [ih i' v (Nat.le_of_succ_le_succ h)]

theorem seqIndex_ok_lt {t : String} {len i : Nat}
    (h : seqIndex t len = .ok i) : i < len := by
  unfold seqIndex at h
  split at h
  · cases h
  · split at h
    · cases h
    · split at h
      · rename_i hlt
        exact Except.ok.inj h ▸ hlt
      · cases h

theorem seqIndex_error_kinds {t : String} {len : Nat} {e : ErrorKind}
    (h : seqIndex t len = .error e) :
    e = .pointerNotFound ∨ e = .invalidPointerSyntax := by
  unfold seqIndex at h
  split at h
  · exact Or.inl (Except.error.inj h).symm
  · split at h
    · exact Or.inr (Except.error.inj h).symm
    · split at h
      · cases h
      · exact Or.inl (Except.error.inj h).symm

theorem resolve_error_kinds :
    ∀ (toks : List String) (d : JSONValue) (e : ErrorKind),
      resolve d toks = .error e →
      e = .pointerNotFound ∨ e = .invalidPointerSyntax := by
  intro toks
  induction toks with
  | nil => intro d e h; simp only [resolve] at h; cases h
  | cons t ts ih =>
    intro d e h
    cases d with
    | obj m =>
      simp only [resolve] at h
      split at h
      · rename_i w hw
        exact ih w e h
      · exact Or.inl (Except.error.inj h).symm
    | arr a =>
      simp only [resolve] at h
      split at h
      · rename_i i hi
        split at h
        · rename_i w hw
          exact ih w e h
        · exact Or.inl (Except.error.inj h).symm
      · rename_i e0 he0
        rw [← Except.error.inj h]
        exact seqIndex_error_kinds he0
    | str s => exact Or.inl (Except.error.inj h).symm
    | num n => exact Or.inl (Except.error.inj h).symm
    | bool b => exact Or.inl (Except.error.inj h).symm
    | null => exact Or.inl (Except.error.inj h).symm

theorem removeAt_error_of_resolve :
    ∀ (toks : List String) (d : JSONValue) (e : ErrorKind),
      resolve d toks = .error e → removeAt d toks = .error e := by
  intro toks
  induction toks with
  | nil => intro d e h; simp only [resolve] at h; cases h
  | cons t ts ih =>
    intro d e h
    cases ts with
    | nil =>
      cases d with
      | obj m =>
        simp only [resolve] at h
        split at h
        · cases h
        · rename_i hl
          rw [← Except.error.inj h]
          simp [removeAt, hasKey, hl]
      | arr a =>
        simp only [resolve] at h
        split at h
        · rename_i i hi
          split at h
          · cases h
          · rename_i hn
            obtain ⟨w, hw⟩ := nthItem_lt a i (seqIndex_ok_lt hi)
            rw [hw] at hn
            cases hn
        · rename_i e0 he0
          simp only [removeAt, he0]
          rw [← Except.error.inj h]
      | str s => simp only [resolve] at h; simp only [removeAt]; rw [← Except.error.inj h]
      | num n => simp only [resolve] at h; simp only [removeAt]; rw [← Except.error.inj h]
      | bool b => simp only [resolve] at h; simp only [removeAt]; rw [← Except.error.inj h]
      | null => simp only [resolve] at h; simp only [removeAt]; rw [← Except.error.inj h]
    | cons t2 ts2 =>
      cases d with
      | obj m =>
        simp only [resolve] at h
        split at h
        · rename_i w hw
          simp only [removeAt, hw, ih w e h]
        · rename_i hl
          simp only [removeAt, hl]
          rw [← Except.error.inj h]
      | arr a =>
        simp only [resolve] at h
        split at h
        · rename_i i hi
          split at h
          · rename_i w hw
            simp only [removeAt, hi, hw, ih w e h]
          · rename_i hn
            obtain ⟨w, hw⟩ := nthItem_lt a i (seqIndex_ok_lt hi)
            rw [hw] at hn
            cases hn
        · rename_i e0 he0
          simp only [removeAt, he0]
          rw [← Except.error.inj h]
      | str s => simp only [resolve] at h; simp only [removeAt]; rw [← Except.error.inj h]
      | num n => simp only [resolve] at h; simp only [removeAt]; rw [← Except.error.inj h]
      | bool b => simp only [resolve] at h; simp only [removeAt]; rw [← Except.error.inj h]
      | null => simp only [resolve] at h; simp only [removeAt]; rw [← Except.error.inj h]

theorem addAt_removeAt_roundtrip :
    ∀ (toks : List String) (D V D1 : JSONValue) (e : ErrorKind),
      resolve D toks = .error e → lastTok toks ≠ some "-" →
      addAt D toks V = .ok D1 → removeAt D1 toks = .ok D := by
  intro toks
  induction toks with
  | nil => intro D V D1 e herr _ _; simp only [resolve] at herr; cases herr
  | cons t ts ih =>
    intro D V D1 e herr hlast hadd
    cases ts with
    | nil =>
      have ht : t ≠ "-" := fun h => hlast (by subst h; rfl)
      cases D with
      | obj m =>
        simp only [resolve] at herr
        split at herr
        · cases herr
        · rename_i hl
          simp only [addAt] at hadd
          rw [← Except.ok.inj hadd]
          simp [removeAt, hasKey, lookupKey_setKey_self,
            removeKey_setKey_fresh m t V hl]
      | arr a =>
        simp only [addAt] at hadd
        split at hadd
        · rename_i i hins
          unfold seqInsertIndex at hins
          rw [if_neg ht] at hins
          split at hins
          · cases hins
          · rename_i j hp
            split at hins
            · rename_i hle
              have hj : j = i := Except.ok.inj hins
              subst hj
              rw [← Except.ok.inj hadd]
              have hlen := length_insertItem a j V hle
              have hseq2 : seqIndex t (insertItem a j V).length = .ok j := by
                simp only [hlen, seqIndex, if_neg ht, hp,
                  if_pos (Nat.lt_succ_of_le hle)]
              simp only [removeAt, hseq2, removeItem_insertItem a j V hle]
            · cases hins
        · cases hadd
      | str s => simp only [addAt] at hadd; cases hadd
      | num n => simp only [addAt] at hadd; cases hadd
      | bool b => simp only [addAt] at hadd; cases hadd
      | null => simp only [addAt] at hadd; cases hadd
    | cons t2 ts2 =>
      cases D with
      | obj m =>
        simp only [addAt] at hadd
        split at hadd
        · rename_i w hw
          split at hadd
          · rename_i w1 hw1
            simp only [resolve, hw] at herr
            have hrec := ih w V w1 e herr hlast hw1
            rw [← Except.ok.inj hadd]
            simp only [removeAt, lookupKey_setKey_self, hrec,
              setKey_setKey_self, setKey_lookup_self m t w hw]
          · cases hadd
        · cases hadd
      | arr a =>
        simp only [addAt] at hadd
        split at hadd
        · rename_i i hi
          split at hadd
          · rename_i w hw
            split at hadd
            · rename_i w1 hw1
              simp only [resolve, hi, hw] at herr
              have hrec := ih w V w1 e herr hlast hw1
              rw [← Except.ok.inj hadd]
              have hseq2 : seqIndex t (setItem a i w1).length = .ok i := by
                rw [length_setItem]
                exact hi
              simp only [removeAt, hseq2, nthItem_setItem_self a i w1 w hw,
                hrec, setItem_setItem_self, setItem_nthItem_self a i w hw]
            · cases hadd
          · cases hadd
        · cases hadd
      | str s => simp only [addAt] at hadd; cases hadd
      | num n => simp only [addAt] at hadd; cases hadd
      | bool b => simp only [addAt] at hadd; cases hadd
      | null => simp only [addAt] at hadd; cases hadd

/-- Counterexample to claim C4 as stated: on the document `[null]`, the
pointer whose single token is `-` does not read-resolve (so it is "fresh")
and its parent (the root) resolves, yet adding at it appends and the
subsequent `remove` at the same pointer fails (the `-` token is an
insertion-only target), leaving the appended document, which is not
structurally equal to the original. -/
theorem add_remove_roundtrip_counterexample :
    resolve (.arr [.null]) (parsePointer "/-") = .error .pointerNotFound
    ∧ resolve (.arr [.null]) ((parsePointer "/-").dropLast) = .ok (.arr [.null])
    ∧ structEq
        ((applyPatch ((applyPatch (.arr [.null]) [.add "/-" (.num 1)]).1)
          [.remove "/-"]).1)
        (.arr [.null]) = false :=
  ⟨rfl, rfl, rfl⟩

/-- Claim C4 (amended): for every document `D`, value `V` and fresh pointer
`p` (one that does not read-resolve in `D` but whose parent does) whose
final token is not the insertion-only token `-`, applying `add p V` and then
`remove p` to the result yields a document structurally equal to `D`. -/
theorem add_remove_roundtrip_amended :
    ∀ (D V w : JSONValue) (p : String) (e : ErrorKind),
      resolve D (parsePointer p) = .error e →
      resolve D ((parsePointer p).dropLast) = .ok w →
      lastTok (parsePointer p) ≠ some "-" →
      (applyPatch ((applyPatch D [.add p V]).1) [.remove p]).1 = D := by
  intro D V w p e herr hparent hlast
  cases hadd : addAt D (parsePointer p) V with
  | ok D1 =>
    have h1 : (applyPatch D [.add p V]).1 = D1 := by
      simp only [applyPatch, applyFrom, applyOp, hadd]
    rw [h1]
    have h2 := addAt_removeAt_roundtrip (parsePointer p) D V D1 e herr hlast hadd
    simp only [applyPatch, applyFrom, applyOp, h2]
  | error e2 =>
    have h1 : (applyPatch D [.add p V]).1 = D := by
      simp only [applyPatch, applyFrom, applyOp, hadd]
    rw [h1]
    have h2 := removeAt_error_of_resolve (parsePointer p) D e herr
    simp only [applyPatch, applyFrom, applyOp, h2]

/-- Witness for the amended C4 at the fresh key `b` of a one-member object. -/
theorem add_remove_roundtrip_witness :
    (applyPatch ((applyPatch (.obj [("a", .num 1)]) [.add "/b" (.num 2)]).1)
      [.remove "/b"]).1 = .obj [("a", .num 1)] :=
  add_remove_roundtrip_amended (.obj [("a", .num 1)]) (.num 2)
    (.obj [("a", .num 1)]) "/b" .pointerNotFound rfl rfl (by decide)

/-! ## Remove semantics (claim C6) -/

theorem removeItem_eq_take_drop :
    ∀ (a : List JSONValue) (i : Nat), i < a.length →
      removeItem a i = a.take i ++ a.drop (i + 1) := by
  intro a
  induction a with
  | nil => intro i h; cases h
  | cons x xs ih =>
    intro i h
    cases i with
    | zero => simp [removeItem]
    | succ i' =>
      simp only [removeItem, List.take_succ_cons, List.drop_succ_cons,
        List.cons_append]
      rw [ih i' (Nat.lt_of_succ_lt_succ h)]

theorem replaceAt_ok_of_resolve :
    ∀ (pp : List String) (D x w : JSONValue),
      resolve D pp = .ok x → ∃ D', replaceAt D pp w = .ok D' := by
  intro pp
  induction pp with
  | nil => intro D x w _; exact ⟨w, by simp only [replaceAt]⟩
  | cons t pp2 ih =>
    intro D x w h
    cases D with
    | obj m =>
      simp only [resolve] at h
      split at h
      · rename_i u hu
        cases pp2 with
        | nil =>
          refine ⟨.obj (setKey m t w), ?_⟩
          simp [replaceAt, hasKey, hu]
        | cons q qs =>
          obtain ⟨u', hu'⟩ := ih u x w h
          refine ⟨.obj (setKey m t u'), ?_⟩
          simp only [replaceAt, hu, hu']
      · cases h
    | arr a =>
      simp only [resolve] at h
      split at h
      · rename_i i hi
        split at h
        · rename_i u hu
          cases pp2 with
          | nil =>
            refine ⟨.arr (setItem a i w), ?_⟩
            simp only [replaceAt, hi]
          | cons q qs =>
            obtain ⟨u', hu'⟩ := ih u x w h
            refine ⟨.arr (setItem a i u'), ?_⟩
            simp only [replaceAt, hi, hu, hu']
        · cases h
      · cases h
    | str s => cases h
    | num n => cases h
    | bool b => cases h
    | null => cases h

theorem hasKey_exists {m : List (String × JSONValue)} {t : String}
    (hk : hasKey m t = true) : ∃ v, lookupKey m t = some v := by
  unfold hasKey at hk
  cases h : lookupKey m t with
  | some v => exact ⟨v, rfl⟩
  | none => rw [h] at hk; cases hk

theorem removeAt_obj_decomp :
    ∀ (pp : List String) (D : JSONValue) (m : List (String × JSONValue))
      (t : String),
      resolve D pp = .ok (.obj m) → hasKey m t = true →
      removeAt D (pp ++ [t]) = replaceAt D pp (.obj (removeKey m t)) := by
  intro pp
  induction pp with
  | nil =>
    intro D m t h hk
    simp only [resolve] at h
    have hD : D = .obj m := Except.ok.inj h
    subst hD
    obtain ⟨v, hv⟩ := hasKey_exists hk
    simp [removeAt, replaceAt, hasKey, hv]
  | cons t0 pp2 ih =>
    intro D m t h hk
    cases D with
    | obj mm =>
      simp only [resolve] at h
      split at h
      · rename_i u hu
        cases pp2 with
        | nil =>
          have hu2 : u = .obj m := by
            simp only [resolve] at h
            exact Except.ok.inj h
          subst hu2
          obtain ⟨v, hv⟩ := hasKey_exists hk
          simp [removeAt, replaceAt, hasKey, hu, hv]
        | cons q qs =>
          have ih2 := ih u m t h hk
          rw [List.cons_append] at ih2
          simp [removeAt, replaceAt, hu, ih2]
      · cases h
    | arr a =>
      simp only [resolve] at h
      split at h
      · rename_i i hi
        split at h
        · rename_i u hu
          cases pp2 with
          | nil =>
            have hu2 : u = .obj m := by
              simp only [resolve] at h
              exact Except.ok.inj h
            subst hu2
            obtain ⟨v, hv⟩ := hasKey_exists hk
            simp [removeAt, replaceAt, hasKey, hi, hu, hv]
          | cons q qs =>
            have ih2 := ih u m t h hk
            rw [List.cons_append] at ih2
            simp [removeAt, replaceAt, hi, hu, ih2]
        · cases h
      · cases h
    | str s => cases h
    | num n => cases h
    | bool b => cases h
    | null => cases h

theorem removeAt_arr_decomp :
    ∀ (pp : List String) (D : JSONValue) (a : List JSONValue)
      (t : String) (i : Nat),
      resolve D pp = .ok (.arr a) → parseIndex t = some i → i < a.length →
      removeAt D (pp ++ [t]) = replaceAt D pp (.arr (removeItem a i)) := by
  intro pp
  induction pp with
  | nil =>
    intro D a t i h hp hlt
    simp only [resolve] at h
    have hD : D = .arr a := Except.ok.inj h
    subst hD
    have ht : t ≠ "-" := by
      intro hT
      have hnone : parseIndex "-" = none := rfl
      rw [hT, hnone] at hp
      cases hp
    have hseq : seqIndex t a.length = .ok i := by
      simp only [seqIndex, if_neg ht, hp, if_pos hlt]
    simp [removeAt, replaceAt, hseq]
  | cons t0 pp2 ih =>
    intro D a t i h hp hlt
    cases D with
    | obj mm =>
      simp only [resolve] at h
      split at h
      · rename_i u hu
        cases pp2 with
        | nil =>
          have hu2 : u = .arr a := by
            simp only [resolve] at h
            exact Except.ok.inj h
          subst hu2
          have ht : t ≠ "-" := by
            intro hT
            have hnone : parseIndex "-" = none := rfl
            rw [hT, hnone] at hp
            cases hp
          have hseq : seqIndex t a.length = .ok i := by
            simp only [seqIndex, if_neg ht, hp, if_pos hlt]
          simp [removeAt, replaceAt, hasKey, hu, hseq]
        | cons q qs =>
          have ih2 := ih u a t i h hp hlt
          rw [List.cons_append] at ih2
          simp [removeAt, replaceAt, hu, ih2]
      · cases h
    | arr aa =>
      simp only [resolve] at h
      split at h
      · rename_i j hj
        split at h
        · rename_i u hu
          cases pp2 with
          | nil =>
            have hu2 : u = .arr a := by
              simp only [resolve] at h
              exact Except.ok.inj h
            subst hu2
            have ht : t ≠ "-" := by
              intro hT
              have hnone : parseIndex "-" = none := rfl
              rw [hT, hnone] at hp
              cases hp
            have hseq : seqIndex t a.length = .ok i := by
              simp only [seqIndex, if_neg ht, hp, if_pos hlt]
            simp [removeAt, replaceAt, hj, hu, hseq]
          | cons q qs =>
            have ih2 := ih u a t i h hp hlt
            rw [List.cons_append] at ih2
            simp [removeAt, replaceAt, hj, hu, ih2]
        · cases h
      · cases h
    | str s => cases h
    | num n => cases h
    | bool b => cases h
    | null => cases h

/-- Counterexample to claim C6 as stated: on the document `[null]` the
pointer `/00` does not resolve (the token `00` is a malformed sequence index
literal), and `remove` indeed fails rather than succeeding as a no-op, but
the failure kind is `invalidPointerSyntax`, not `PointerNotFound` as the
claim demands for every unresolvable pointer. -/
theorem remove_missing_counterexample :
    resolve (.arr [.null]) (parsePointer "/00") = .error .invalidPointerSyntax
    ∧ applyPatch (.arr [.null]) [.remove "/00"]
        = (.arr [.null], some ⟨0, .invalidPointerSyntax, "/00"⟩)
    ∧ ErrorKind.invalidPointerSyntax ≠ ErrorKind.pointerNotFound :=
  ⟨rfl, rfl, by decide⟩

/-- Claim C6 (amended): `remove` at a pointer that does not resolve fails
(never a silent no-op) with the resolution failure's kind, which is
`pointerNotFound` except when a sequence-index token is malformed, where it
is `invalidPointerSyntax`; `remove` at the root fails with
`pointerNotFound`; and when the pointer does resolve, `remove` deletes the
mapping key (`removeKey`) or the sequence element at the index — subsequent
elements shifting left, the result sequence being `take i ++ drop (i+1)` —
written back at the parent, and the patch succeeds with no failure. -/
theorem remove_semantics_amended :
    ∀ (D : JSONValue) (p : String),
      (∀ e, resolve D (parsePointer p) = .error e →
          applyPatch D [.remove p] = (D, some ⟨0, e, p⟩)
          ∧ (e = .pointerNotFound ∨ e = .invalidPointerSyntax))
      ∧ (parsePointer p = [] →
          applyPatch D [.remove p] = (D, some ⟨0, .pointerNotFound, p⟩))
      ∧ (∀ pp t m, parsePointer p = pp ++ [t] →
          resolve D pp = .ok (.obj m) → hasKey m t = true →
          removeAt D (parsePointer p) = replaceAt D pp (.obj (removeKey m t))
          ∧ ∃ D', removeAt D (parsePointer p) = .ok D'
              ∧ applyPatch D [.remove p] = (D', none))
      ∧ (∀ pp t a i, parsePointer p = pp ++ [t] →
          resolve D pp = .ok (.arr a) → parseIndex t = some i →
          i < a.length →
          removeAt D (parsePointer p)
            = replaceAt D pp (.arr (a.take i ++ a.drop (i + 1)))
          ∧ ∃ D', removeAt D (parsePointer p) = .ok D'
              ∧ applyPatch D [.remove p] = (D', none)) := by
  intro D p
  refine ⟨?_, ?_, ?_, ?_⟩
  · intro e he
    have h2 := removeAt_error_of_resolve (parsePointer p) D e he
    constructor
    · simp only [applyPatch, applyFrom, applyOp, h2, pathOf]
    · exact resolve_error_kinds (parsePointer p) D e he
  · intro hroot
    have h2 : removeAt D (parsePointer p) = .error .pointerNotFound := by
      rw [hroot]
      simp only [removeAt]
    simp only [applyPatch, applyFrom, applyOp, h2, pathOf]
  · intro pp t m hpp hres hk
    have hdec := removeAt_obj_decomp pp D m t hres hk
    rw [← hpp] at hdec
    refine ⟨hdec, ?_⟩
    obtain ⟨D', hD'⟩ :=
      replaceAt_ok_of_resolve pp D (.obj m) (.obj (removeKey m t)) hres
    refine ⟨D', ?_, ?_⟩
    · rw [hdec, hD']
    · have h3 : removeAt D (parsePointer p) = .ok D' := by rw [hdec, hD']
      simp only [applyPatch, applyFrom, applyOp, h3]
  · intro pp t a i hpp hres hpi hlt
    have hdec := removeAt_arr_decomp pp D a t i hres hpi hlt
    rw [← hpp] at hdec
    rw [removeItem_eq_take_drop a i hlt] at hdec
    refine ⟨hdec, ?_⟩
    obtain ⟨D', hD'⟩ := replaceAt_ok_of_resolve pp D (.arr a)
      (.arr (a.take i ++ a.drop (i + 1))) hres
    refine ⟨D', ?_, ?_⟩
    · rw [hdec, hD']
    · have h3 : removeAt D (parsePointer p) = .ok D' := by rw [hdec, hD']
      simp only [applyPatch, applyFrom, applyOp, h3]

/-- Witness for the amended C6: deleting the existing key `a` of a
two-member object succeeds and is the parent-level `removeKey` write-back. -/
theorem remove_semantics_witness :
    removeAt (.obj [("a", .num 1), ("b", .num 2)]) (parsePointer "/a")
      = replaceAt (.obj [("a", .num 1), ("b", .num 2)]) []
          (.obj (removeKey [("a", .num 1), ("b", .num 2)] "a"))
    ∧ ∃ D', removeAt (.obj [("a", .num 1), ("b", .num 2)])
          (parsePointer "/a") = .ok D'
        ∧ applyPatch (.obj [("a", .num 1), ("b", .num 2)]) [.remove "/a"]
            = (D', none) :=
  (remove_semantics_amended (.obj [("a", .num 1), ("b", .num 2)]) "/a").2.2.1
    [] "a" [("a", .num 1), ("b", .num 2)] rfl rfl rfl

/-! ## Move versus copy-then-remove (claim C3) -/

theorem lookupKey_setKey_ne :
    ∀ (m : List (String × JSONValue)) (t k : String) (v : JSONValue),
      k ≠ t → lookupKey (setKey m t v) k = lookupKey m k := by
  intro m t k v hk
  induction m with
  | nil => simp [setKey, lookupKey, Ne.symm hk]
  | cons kv rest ih =>
    obtain ⟨k0, v0⟩ := kv
    by_cases h0 : k0 = t
    · subst h0
      simp [setKey, lookupKey, Ne.symm hk]
    · simp [setKey, lookupKey, h0, ih]

theorem lookupKey_removeKey_ne :
    ∀ (m : List (String × JSONValue)) (t k : String),
      k ≠ t → lookupKey (removeKey m t) k = lookupKey m k := by
  intro m t k hk
  induction m with
  | nil => rfl
  | cons kv rest ih =>
    obtain ⟨k0, v0⟩ := kv
    by_cases h0 : k0 = t
    · subst h0
      simp [removeKey, lookupKey, Ne.symm hk]
    · simp [removeKey, lookupKey, h0, ih]

theorem removeKey_setKey_comm :
    ∀ (m : List (String × JSONValue)) (tA tB : String) (x : JSONValue),
      tA ≠ tB → removeKey (setKey m tB x) tA = setKey (removeKey m tA) tB x := by
  intro m tA tB x hne
  induction m with
  | nil => simp [setKey, removeKey, Ne.symm hne]
  | cons kv rest ih =>
    obtain ⟨k0, v0⟩ := kv
    by_cases hB : k0 = tB
    · subst hB
      simp [setKey, removeKey, Ne.symm hne]
    · by_cases hA : k0 = tA
      · subst hA
        simp [setKey, removeKey, hB]
      · simp [setKey, removeKey, hA, hB, ih]

theorem setKey_comm_of_hasKey :
    ∀ (m : List (String × JSONValue)) (tA tB : String) (x y : JSONValue),
      hasKey m tA = true → tA ≠ tB →
      setKey (setKey m tA x) tB y = setKey (setKey m tB y) tA x := by
  intro m tA tB x y hk hne
  induction m with
  | nil => simp [hasKey, lookupKey] at hk
  | cons kv rest ih =>
    obtain ⟨k0, v0⟩ := kv
    by_cases hA : k0 = tA
    · subst hA
      simp [setKey, hne]
    · by_cases hB : k0 = tB
      · subst hB
        simp [setKey, hA]
      · simp only [hasKey, lookupKey, if_neg hA] at hk
        simp [setKey, hA, hB, ih (by simpa [hasKey] using hk)]

theorem moveCommuteBase1 :
    ∀ (m : List (String × JSONValue)) (tA tB : String) (ra rb : List String)
      (v Dr Da : JSONValue), tA ≠ tB →
      removeAt (.obj m) (tA :: ra) = .ok Dr →
      addAt (.obj m) (tB :: rb) v = .ok Da →
      ∃ X, addAt Dr (tB :: rb) v = .ok X ∧ removeAt Da (tA :: ra) = .ok X := by
  intro m tA tB ra rb v Dr Da hne hRem hAdd
  cases ra with
  | nil =>
    simp only [removeAt] at hRem
    split at hRem
    · rename_i hk
      have hDr : JSONValue.obj (removeKey m tA) = Dr := Except.ok.inj hRem
      subst hDr
      cases rb with
      | nil =>
        simp only [addAt] at hAdd
        have hDa : JSONValue.obj (setKey m tB v) = Da := Except.ok.inj hAdd
        subst hDa
        refine ⟨.obj (setKey (removeKey m tA) tB v), ?_, ?_⟩
        · simp [addAt]
        · simp [removeAt, hasKey_setKey_ne m tB tA v hne, hk,
            removeKey_setKey_comm m tA tB v hne]
      | cons s1 ss =>
        simp only [addAt] at hAdd
        split at hAdd
        · rename_i u hu
          split at hAdd
          · rename_i u1 hu1
            have hDa : JSONValue.obj (setKey m tB u1) = Da := Except.ok.inj hAdd
            subst hDa
            refine ⟨.obj (setKey (removeKey m tA) tB u1), ?_, ?_⟩
            · simp [addAt, lookupKey_removeKey_ne m tA tB (Ne.symm hne), hu, hu1]
            · simp [removeAt, hasKey_setKey_ne m tB tA u1 hne, hk,
                removeKey_setKey_comm m tA tB u1 hne]
          · cases hAdd
        · cases hAdd
    · cases hRem
  | cons r1 rs =>
    simp only [removeAt] at hRem
    split at hRem
    · rename_i w hw
      split at hRem
      · rename_i w1 hw1
        have hDr : JSONValue.obj (setKey m tA w1) = Dr := Except.ok.inj hRem
        subst hDr
        have hkA : hasKey m tA = true := by simp [hasKey, hw]
        cases rb with
        | nil =>
          simp only [addAt] at hAdd
          have hDa : JSONValue.obj (setKey m tB v) = Da := Except.ok.inj hAdd
          subst hDa
          refine ⟨.obj (setKey (setKey m tB v) tA w1), ?_, ?_⟩
          · simp [addAt, setKey_comm_of_hasKey m tA tB w1 v hkA hne]
          · simp [removeAt, lookupKey_setKey_ne m tB tA v hne, hw, hw1]
        | cons s1 ss =>
          simp only [addAt] at hAdd
          split at hAdd
          · rename_i u hu
            split at hAdd
            · rename_i u1 hu1
              have hDa : JSONValue.obj (setKey m tB u1) = Da := Except.ok.inj hAdd
              subst hDa
              refine ⟨.obj (setKey (setKey m tB u1) tA w1), ?_, ?_⟩
              · simp [addAt, lookupKey_setKey_ne m tA tB w1 (Ne.symm hne), hu,
                  hu1, setKey_comm_of_hasKey m tA tB w1 u1 hkA hne]
              · simp [removeAt, lookupKey_setKey_ne m tB tA u1 hne, hw, hw1]
            · cases hAdd
          · cases hAdd
      · cases hRem
    · cases hRem

theorem moveCommuteBase2 :
    ∀ (m : List (String × JSONValue)) (tA tB : String) (ra rb : List String)
      (v Dr : JSONValue) (e : ErrorKind), tA ≠ tB →
      removeAt (.obj m) (tA :: ra) = .ok Dr →
      addAt (.obj m) (tB :: rb) v = .error e →
      addAt Dr (tB :: rb) v = .error e := by
  intro m tA tB ra rb v Dr e hne hRem hAdd
  cases rb with
  | nil => simp only [addAt] at hAdd; cases hAdd
  | cons s1 ss =>
    simp only [addAt] at hAdd
    split at hAdd
    · rename_i u hu
      split at hAdd
      · cases hAdd
      · rename_i e0 hu1
        have he : e0 = e := Except.error.inj hAdd
        subst he
        cases ra with
        | nil =>
          simp only [removeAt] at hRem
          split at hRem
          · rename_i hk
            have hDr : JSONValue.obj (removeKey m tA) = Dr := Except.ok.inj hRem
            subst hDr
            simp [addAt, lookupKey_removeKey_ne m tA tB (Ne.symm hne), hu, hu1]
          · cases hRem
        | cons r1 rs =>
          simp only [removeAt] at hRem
          split at hRem
          · rename_i w hw
            split at hRem
            · rename_i w1 hw1
              have hDr : JSONValue.obj (setKey m tA w1) = Dr := Except.ok.inj hRem
              subst hDr
              simp [addAt, lookupKey_setKey_ne m tA tB w1 (Ne.symm hne), hu, hu1]
            · cases hRem
          · cases hRem
    · rename_i hu
      have he : ErrorKind.pointerNotFound = e := Except.error.inj hAdd
      subst he
      cases ra with
      | nil =>
        simp only [removeAt] at hRem
        split at hRem
        · rename_i hk
          have hDr : JSONValue.obj (removeKey m tA) = Dr := Except.ok.inj hRem
          subst hDr
          simp [addAt, lookupKey_removeKey_ne m tA tB (Ne.symm hne), hu]
        · cases hRem
      | cons r1 rs =>
        simp only [removeAt] at hRem
        split at hRem
        · rename_i w hw
          split at hRem
          · rename_i w1 hw1
            have hDr : JSONValue.obj (setKey m tA w1) = Dr := Except.ok.inj hRem
            subst hDr
            simp [addAt, lookupKey_setKey_ne m tA tB w1 (Ne.symm hne), hu]
          · cases hRem
        · cases hRem

theorem moveCommuteBase3 :
    ∀ (m : List (String × JSONValue)) (tA tB : String) (ra rb : List String)
      (v Da : JSONValue) (e : ErrorKind), tA ≠ tB →
      removeAt (.obj m) (tA :: ra) = .error e →
      addAt (.obj m) (tB :: rb) v = .ok Da →
      removeAt Da (tA :: ra) = .error e := by
  intro m tA tB ra rb v Da e hne hRem hAdd
  cases ra with
  | nil =>
    simp only [removeAt] at hRem
    split at hRem
    · cases hRem
    · rename_i hk
      have hk2 : hasKey m tA = false := by
        cases h : hasKey m tA
        · rfl
        · rw [h] at hk; exact absurd rfl hk
      have he : ErrorKind.pointerNotFound = e := Except.error.inj hRem
      subst he
      cases rb with
      | nil =>
        simp only [addAt] at hAdd
        have hDa : JSONValue.obj (setKey m tB v) = Da := Except.ok.inj hAdd
        subst hDa
        simp [removeAt, hasKey_setKey_ne m tB tA v hne, hk2]
      | cons s1 ss =>
        simp only [addAt] at hAdd
        split at hAdd
        · rename_i u hu
          split at hAdd
          · rename_i u1 hu1
            have hDa : JSONValue.obj (setKey m tB u1) = Da := Except.ok.inj hAdd
            subst hDa
            simp [removeAt, hasKey_setKey_ne m tB tA u1 hne, hk2]
          · cases hAdd
        · cases hAdd
  | cons r1 rs =>
    simp only [removeAt] at hRem
    split at hRem
    · rename_i w hw
      split at hRem
      · cases hRem
      · rename_i e0 hw1
        have he : e0 = e := Except.error.inj hRem
        subst he
        cases rb with
        | nil =>
          simp only [addAt] at hAdd
          have hDa : JSONValue.obj (setKey m tB v) = Da := Except.ok.inj hAdd
          subst hDa
          simp [removeAt, lookupKey_setKey_ne m tB tA v hne, hw, hw1]
        | cons s1 ss =>
          simp only [addAt] at hAdd
          split at hAdd
          · rename_i u hu
            split at hAdd
            · rename_i u1 hu1
              have hDa : JSONValue.obj (setKey m tB u1) = Da := Except.ok.inj hAdd
              subst hDa
              simp [removeAt, lookupKey_setKey_ne m tB tA u1 hne, hw, hw1]
            · cases hAdd
          · cases hAdd
    · rename_i hw
      have he : ErrorKind.pointerNotFound = e := Except.error.inj hRem
      subst he
      cases rb with
      | nil =>
        simp only [addAt] at hAdd
        have hDa : JSONValue.obj (setKey m tB v) = Da := Except.ok.inj hAdd
        subst hDa
        simp [removeAt, lookupKey_setKey_ne m tB tA v hne, hw]
      | cons s1 ss =>
        simp only [addAt] at hAdd
        split at hAdd
        · rename_i u hu
          split at hAdd
          · rename_i u1 hu1
            have hDa : JSONValue.obj (setKey m tB u1) = Da := Except.ok.inj hAdd
            subst hDa
            simp [removeAt, lookupKey_setKey_ne m tB tA u1 hne, hw]
          · cases hAdd
        · cases hAdd

theorem removeAt_obj_cons_some (m : List (String × JSONValue)) (t0 : String)
    (ts : List String) (u : JSONValue) (hts : ts ≠ [])
    (hu : lookupKey m t0 = some u) :
    removeAt (.obj m) (t0 :: ts)
      = match removeAt u ts with
        | .ok w2 => .ok (.obj (setKey m t0 w2))
        | .error e => .error e := by
  cases ts with
  | nil => exact absurd rfl hts
  | cons t2 ts2 => simp [removeAt, hu]

theorem addAt_obj_cons_some (m : List (String × JSONValue)) (t0 : String)
    (ts : List String) (u v : JSONValue) (hts : ts ≠ [])
    (hu : lookupKey m t0 = some u) :
    addAt (.obj m) (t0 :: ts) v
      = match addAt u ts v with
        | .ok w2 => .ok (.obj (setKey m t0 w2))
        | .error e => .error e := by
  cases ts with
  | nil => exact absurd rfl hts
  | cons t2 ts2 => simp [addAt, hu]

theorem removeAt_arr_cons_at (a : List JSONValue) (t0 : String)
    (ts : List String) (i : Nat) (u : JSONValue) (hts : ts ≠ [])
    (hi : seqIndex t0 a.length = .ok i) (hu : nthItem a i = some u) :
    removeAt (.arr a) (t0 :: ts)
      = match removeAt u ts with
        | .ok w2 => .ok (.arr (setItem a i w2))
        | .error e => .error e := by
  cases ts with
  | nil => exact absurd rfl hts
  | cons t2 ts2 => simp [removeAt, hi, hu]

theorem addAt_arr_cons_at (a : List JSONValue) (t0 : String)
    (ts : List String) (i : Nat) (u v : JSONValue) (hts : ts ≠ [])
    (hi : seqIndex t0 a.length = .ok i) (hu : nthItem a i = some u) :
    addAt (.arr a) (t0 :: ts) v
      = match addAt u ts v with
        | .ok w2 => .ok (.arr (setItem a i w2))
        | .error e => .error e := by
  cases ts with
  | nil => exact absurd rfl hts
  | cons t2 ts2 => simp [addAt, hi, hu]

theorem moveCommute :
    ∀ (tA tB : String), tA ≠ tB →
    ∀ (c : List String) (D : JSONValue) (m : List (String × JSONValue))
      (ra rb : List String) (v : JSONValue),
      resolve D c = .ok (.obj m) →
      ((∀ Dr Da, removeAt D (c ++ tA :: ra) = .ok Dr →
          addAt D (c ++ tB :: rb) v = .ok Da →
          ∃ X, addAt Dr (c ++ tB :: rb) v = .ok X
            ∧ removeAt Da (c ++ tA :: ra) = .ok X)
      ∧ (∀ Dr e, removeAt D (c ++ tA :: ra) = .ok Dr →
          addAt D (c ++ tB :: rb) v = .error e →
          addAt Dr (c ++ tB :: rb) v = .error e)
      ∧ (∀ e Da, removeAt D (c ++ tA :: ra) = .error e →
          addAt D (c ++ tB :: rb) v = .ok Da →
          removeAt Da (c ++ tA :: ra) = .error e)) := by
  intro tA tB hne c
  induction c with
  | nil =>
    intro D m ra rb v hres
    simp only [resolve] at hres
    have hD : D = .obj m := Except.ok.inj hres
    subst hD
    simp only [List.nil_append]
    exact ⟨fun Dr Da h1 h2 => moveCommuteBase1 m tA tB ra rb v Dr Da hne h1 h2,
           fun Dr e h1 h2 => moveCommuteBase2 m tA tB ra rb v Dr e hne h1 h2,
           fun e Da h1 h2 => moveCommuteBase3 m tA tB ra rb v Da e hne h1 h2⟩
  | cons t0 c2 ih =>
    intro D m ra rb v hres
    have hts1 : c2 ++ tA :: ra ≠ [] := by simp
    have hts2 : c2 ++ tB :: rb ≠ [] := by simp
    cases D with
    | obj mm =>
      simp only [resolve] at hres
      split at hres
      · rename_i u hu
        obtain ⟨ihm1, ihm2, ihm3⟩ := ih u m ra rb v hres
        have hrm := removeAt_obj_cons_some mm t0 (c2 ++ tA :: ra) u hts1 hu
        have had := addAt_obj_cons_some mm t0 (c2 ++ tB :: rb) u v hts2 hu
        simp only [List.cons_append]
        refine ⟨?_, ?_, ?_⟩
        · intro Dr Da h1 h2
          rw [hrm] at h1
          rw [had] at h2
          split at h1
          · rename_i w2 hw2
            have hDr : JSONValue.obj (setKey mm t0 w2) = Dr := Except.ok.inj h1
            subst hDr
            split at h2
            · rename_i u2 hu2
              have hDa : JSONValue.obj (setKey mm t0 u2) = Da := Except.ok.inj h2
              subst hDa
              obtain ⟨X, hX1, hX2⟩ := ihm1 w2 u2 hw2 hu2
              refine ⟨.obj (setKey mm t0 X), ?_, ?_⟩
              · have h3 := addAt_obj_cons_some (setKey mm t0 w2) t0
                  (c2 ++ tB :: rb) w2 v hts2 (lookupKey_setKey_self mm t0 w2)
                simp only [h3, hX1, setKey_setKey_self]
              · have h4 := removeAt_obj_cons_some (setKey mm t0 u2) t0
                  (c2 ++ tA :: ra) u2 hts1 (lookupKey_setKey_self mm t0 u2)
                simp only [h4, hX2, setKey_setKey_self]
            · cases h2
          · cases h1
        · intro Dr e h1 h2
          rw [hrm] at h1
          rw [had] at h2
          split at h1
          · rename_i w2 hw2
            have hDr : JSONValue.obj (setKey mm t0 w2) = Dr := Except.ok.inj h1
            subst hDr
            split at h2
            · cases h2
            · rename_i e0 he0
              have he : e0 = e := Except.error.inj h2
              subst he
              have h5 := ihm2 w2 e0 hw2 he0
              have h6 := addAt_obj_cons_some (setKey mm t0 w2) t0
                (c2 ++ tB :: rb) w2 v hts2 (lookupKey_setKey_self mm t0 w2)
              simp only [h6, h5]
          · cases h1
        · intro e Da h1 h2
          rw [hrm] at h1
          rw [had] at h2
          split at h1
          · cases h1
          · rename_i e0 he0
            have he : e0 = e := Except.error.inj h1
            subst he
            split at h2
            · rename_i u2 hu2
              have hDa : JSONValue.obj (setKey mm t0 u2) = Da := Except.ok.inj h2
              subst hDa
              have h5 := ihm3 e0 u2 he0 hu2
              have h6 := removeAt_obj_cons_some (setKey mm t0 u2) t0
                (c2 ++ tA :: ra) u2 hts1 (lookupKey_setKey_self mm t0 u2)
              simp only [h6, h5]
            · cases h2
      · cases hres
    | arr aa =>
      simp only [resolve] at hres
      split at hres
      · rename_i i hi
        split at hres
        · rename_i u hu
          obtain ⟨ihm1, ihm2, ihm3⟩ := ih u m ra rb v hres
          have hrm := removeAt_arr_cons_at aa t0 (c2 ++ tA :: ra) i u hts1 hi hu
          have had := addAt_arr_cons_at aa t0 (c2 ++ tB :: rb) i u v hts2 hi hu
          simp only [List.cons_append]
          refine ⟨?_, ?_, ?_⟩
          · intro Dr Da h1 h2
            rw [hrm] at h1
            rw [had] at h2
            split at h1
            · rename_i w2 hw2
              have hDr : JSONValue.arr (setItem aa i w2) = Dr := Except.ok.inj h1
              subst hDr
              split at h2
              · rename_i u2 hu2
                have hDa : JSONValue.arr (setItem aa i u2) = Da := Except.ok.inj h2
                subst hDa
                obtain ⟨X, hX1, hX2⟩ := ihm1 w2 u2 hw2 hu2
                have hi2 : seqIndex t0 (setItem aa i w2).length = .ok i := by
                  rw [length_setItem]
                  exact hi
                have hi3 : seqIndex t0 (setItem aa i u2).length = .ok i := by
                  rw [length_setItem]
                  exact hi
                refine ⟨.arr (setItem aa i X), ?_, ?_⟩
                · have h3 := addAt_arr_cons_at (setItem aa i w2) t0
                    (c2 ++ tB :: rb) i w2 v hts2 hi2
                    (nthItem_setItem_self aa i w2 u hu)
                  simp only [h3, hX1, setItem_setItem_self]
                · have h4 := removeAt_arr_cons_at (setItem aa i u2) t0
                    (c2 ++ tA :: ra) i u2 hts1 hi3
                    (nthItem_setItem_self aa i u2 u hu)
                  simp only [h4, hX2, setItem_setItem_self]
              · cases h2
            · cases h1
          · intro Dr e h1 h2
            rw [hrm] at h1
            rw [had] at h2
            split at h1
            · rename_i w2 hw2
              have hDr : JSONValue.arr (setItem aa i w2) = Dr := Except.ok.inj h1
              subst hDr
              split at h2
              · cases h2
              · rename_i e0 he0
                have he : e0 = e := Except.error.inj h2
                subst he
                have h5 := ihm2 w2 e0 hw2 he0
                have hi2 : seqIndex t0 (setItem aa i w2).length = .ok i := by
                  rw [length_setItem]
                  exact hi
                have h6 := addAt_arr_cons_at (setItem aa i w2) t0
                  (c2 ++ tB :: rb) i w2 v hts2 hi2
                  (nthItem_setItem_self aa i w2 u hu)
                simp only [h6, h5]
            · cases h1
          · intro e Da h1 h2
            rw [hrm] at h1
            rw [had] at h2
            split at h1
            · cases h1
            · rename_i e0 he0
              have he : e0 = e := Except.error.inj h1
              subst he
              split at h2
              · rename_i u2 hu2
                have hDa : JSONValue.arr (setItem aa i u2) = Da := Except.ok.inj h2
                subst hDa
                have h5 := ihm3 e0 u2 he0 hu2
                have hi3 : seqIndex t0 (setItem aa i u2).length = .ok i := by
                  rw [length_setItem]
                  exact hi
                have h6 := removeAt_arr_cons_at (setItem aa i u2) t0
                  (c2 ++ tA :: ra) i u2 hts1 hi3
                  (nthItem_setItem_self aa i u2 u hu)
                simp only [h6, h5]
              · cases h2
        · cases hres
      · cases hres
    | str s => cases hres
    | num n => cases hres
    | bool b => cases hres
    | null => cases hres

theorem isStrictAncestor_diverge :
    ∀ (c : List String) (tA tB : String) (ra rb : List String), tA ≠ tB →
      isStrictAncestor (c ++ tA :: ra) (c ++ tB :: rb) = false := by
  intro c tA tB ra rb hne
  induction c with
  | nil => simp [isStrictAncestor, hne]
  | cons x c2 ih => simp [isStrictAncestor, ih]

/-- Counterexample to claim C3 as stated: on the sequence `["x", "y"]` with
`A` the pointer to index 0 and `B` the pointer to index 1 — distinct, neither
under the other, neither a prefix of the other — `move` yields `["y", "x"]`
while `copy` then `remove` yields `["x", "y"]`: removing at `A` shifts the
meaning of the sibling index `B`, so the two patches differ. -/
theorem move_not_copy_remove_counterexample :
    ("/0" : String) ≠ "/1"
    ∧ isStrictAncestor (parsePointer "/0") (parsePointer "/1") = false
    ∧ isStrictAncestor (parsePointer "/1") (parsePointer "/0") = false
    ∧ structEq
        (applyPatch (.arr [.str "x", .str "y"]) [.move "/0" "/1"]).1
        (applyPatch (.arr [.str "x", .str "y"])
          [.copy "/0" "/1", .remove "/0"]).1
      = false :=
  ⟨by decide, rfl, rfl, rfl⟩

/-- Claim C3 (amended): when the two pointers diverge at a mapping — their
token lists share a common prefix `c`, their first differing tokens are
distinct keys of the mapping that `c` resolves to in `D` — applying
`[move A B]` yields a document structurally equal (here: Lean-equal) to the
result of applying `[copy A B, remove A]`; on any failure both return `D`. -/
theorem move_copy_remove_equiv :
    ∀ (D : JSONValue) (A B : String) (c : List String) (tA tB : String)
      (ra rb : List String) (m : List (String × JSONValue)),
      parsePointer A = c ++ tA :: ra → parsePointer B = c ++ tB :: rb →
      tA ≠ tB → resolve D c = .ok (.obj m) →
      (applyPatch D [.move A B]).1
        = (applyPatch D [.copy A B, .remove A]).1 := by
  intro D A B c tA tB ra rb m hA hB hne hres
  have hanc : isStrictAncestor (parsePointer A) (parsePointer B) = false := by
    rw [hA, hB]
    exact isStrictAncestor_diverge c tA tB ra rb hne
  cases hv : resolve D (parsePointer A) with
  | error e =>
    simp [applyPatch, applyFrom, applyOp, moveOp, copyOp, hanc, hv]
  | ok v0 =>
    obtain ⟨hc1, hc2, hc3⟩ := moveCommute tA tB hne c D m ra rb v0 hres
    rw [← hA, ← hB] at hc1 hc2 hc3
    cases hrem : removeAt D (parsePointer A) with
    | ok Dr =>
      cases hadd : addAt D (parsePointer B) v0 with
      | ok Da =>
        obtain ⟨X, hX1, hX2⟩ := hc1 Dr Da hrem hadd
        simp [applyPatch, applyFrom, applyOp, moveOp, copyOp, hanc, hv,
          hrem, hadd, hX1, hX2]
      | error e =>
        have h2 := hc2 Dr e hrem hadd
        simp [applyPatch, applyFrom, applyOp, moveOp, copyOp, hanc, hv,
          hrem, hadd, h2]
    | error e =>
      cases hadd : addAt D (parsePointer B) v0 with
      | ok Da =>
        have h3 := hc3 e Da hrem hadd
        simp [applyPatch, applyFrom, applyOp, moveOp, copyOp, hanc, hv,
          hrem, hadd, h3]
      | error e2 =>
        simp [applyPatch, applyFrom, applyOp, moveOp, copyOp, hanc, hv,
          hrem, hadd]

/-- Witness for the amended C3: moving the key `a` of a two-member object to
the fresh sibling key `b` equals copying it to `b` and removing `a`. -/
theorem move_copy_remove_witness :
    (applyPatch (.obj [("a", .num 1), ("c", .num 2)]) [.move "/a" "/b"]).1
      = (applyPatch (.obj [("a", .num 1), ("c", .num 2)])
          [.copy "/a" "/b", .remove "/a"]).1 :=
  move_copy_remove_equiv (.obj [("a", .num 1), ("c", .num 2)]) "/a" "/b"
    [] "a" "b" [] [] [("a", .num 1), ("c", .num 2)] rfl rfl (by decide) rfl
